import Mathlib

/-!
Verification of the DecoPilot streaming-response core: the NDJSON frame
decoder, the event aggregators, the markdown table repair transform and the
cancellation handler, shallowly embedded from the JavaScript sources
(src/unnamed/part_000 and src/frontend/src/App.jsx).  Strings are modelled
as lists of characters; JavaScript values flowing through the pipeline are
modelled by an executable JSON value type, and JSON.parse by an executable
fuel-based parser.
-/

namespace DecoPilot

/-- Character strings, modelled as lists of characters. -/
abbrev Str := List Char

/-- Whitespace characters recognised by the JavaScript trim and by the
whitespace class of regular expressions (ASCII fragment). -/
def wsChar (c : Char) : Bool :=
  c == ' ' || c == '\t' || c == '\n' || c == '\r' || c == '\x0b' || c == '\x0c'

/-- Left trim: drop leading whitespace. -/
def trimL (s : Str) : Str := s.dropWhile wsChar

/-- Right trim: drop trailing whitespace. -/
def trimR (s : Str) : Str := (trimL s.reverse).reverse

/-- JavaScript String.prototype.trim. -/
def trim (s : Str) : Str := trimR (trimL s)

/-- Split on the newline character, keeping the (possibly empty) trailing
fragment, exactly like the JavaScript split on a newline. -/
def splitNl : Str → List Str
  | [] => [[]]
  | c :: rest =>
    if c = '\n' then [] :: splitNl rest
    else
      match splitNl rest with
      | [] => [[c]]
      | p :: ps => (c :: p) :: ps

/-- Join a list of lines with newline characters. -/
def joinNl (ls : List Str) : Str := List.intercalate ['\n'] ls

/-- Does the trimmed line start with a pipe character. -/
def startsPipe (s : Str) : Bool := s.head? == some '|'

/-- Does the trimmed line end with a pipe character. -/
def endsPipe (s : Str) : Bool := s.getLast? == some '|'

/-- JavaScript JSON values (undefined is represented by Option.none at use
sites).  Numbers are decimal fixed-point: num m e denotes m divided by ten
to the power e. -/
inductive Json where
  | null : Json
  | bool (b : Bool) : Json
  | num (m : Int) (e : Nat) : Json
  | str (s : Str) : Json
  | arr (elems : List Json) : Json
  | obj (fields : List (Str × Json)) : Json
deriving Repr, BEq

/-- Field lookup on a JSON object; anything else has no fields (yields
undefined, i.e. none).  The last binding of a key wins, as in JavaScript
object construction. -/
def jget (j : Json) (k : Str) : Option Json :=
  match j with
  | .obj fields =>
    match fields.reverse.find? (fun p => p.1 == k) with
    | some p => some p.2
    | none => none
  | _ => none

/-- JavaScript truthiness of a JSON value. -/
def truthy : Json → Bool
  | .null => false
  | .bool b => b
  | .num m _ => m != 0
  | .str s => !s.isEmpty
  | .arr _ => true
  | .obj _ => true

/-- Truthiness of a possibly-undefined value. -/
def truthyOpt : Option Json → Bool
  | none => false
  | some j => truthy j

/-- Decimal digits of a natural number. -/
def natDigits (fuel n : Nat) : Str :=
  match fuel with
  | 0 => []
  | fuel + 1 =>
    if n < 10 then [Char.ofNat (48 + n)]
    else natDigits fuel (n / 10) ++ [Char.ofNat (48 + n % 10)]

/-- Render a model number the way JavaScript renders it for small decimal
fixed-point values. -/
def numToStr (m : Int) (e : Nat) : Str :=
  let sign : Str := if m < 0 then ['-'] else []
  let digits := natDigits (m.natAbs + 1) m.natAbs
  if e = 0 then sign ++ digits
  else
    let padded := List.replicate (e + 1 - digits.length) '0' ++ digits
    sign ++ padded.take (padded.length - e) ++ ['.'] ++ padded.drop (padded.length - e)

mutual

/-- JavaScript string coercion of a JSON value (the fragment relevant to
string concatenation in the sources). -/
def jsToStr : Json → Str
  | .null => "null".data
  | .bool true => "true".data
  | .bool false => "false".data
  | .num m e => numToStr m e
  | .str s => s
  | .arr elems => List.intercalate [','] (jsToStrArr elems)
  | .obj _ => ('[' :: "object Object".data) ++ [']']

/-- Array elements coerce elementwise; null and undefined elements coerce
to the empty string. -/
def jsToStrArr : List Json → List Str
  | [] => []
  | .null :: rest => [] :: jsToStrArr rest
  | v :: rest => jsToStr v :: jsToStrArr rest

end

/-! JSON.parse, modelled by an executable recursive-descent parser over the
character list, with a fuel argument bounding recursion depth. -/

/-- Whitespace accepted between JSON tokens. -/
def jsonWs (c : Char) : Bool :=
  c == ' ' || c == '\t' || c == '\n' || c == '\r'

/-- Skip inter-token whitespace. -/
def skipWs (s : Str) : Str := s.dropWhile jsonWs

/-- Decimal digit test. -/
def isDig (c : Char) : Bool := 48 ≤ c.toNat && c.toNat ≤ 57

/-- Numeric value of a digit string. -/
def digitsToNat (ds : Str) : Nat :=
  ds.foldl (fun acc c => acc * 10 + (c.toNat - 48)) 0

/-- Parse a JSON number (integer or fixed-point decimal). -/
def parseNum (s : Str) : Option (Json × Str) :=
  let signed := s.head? == some '-'
  let s1 := if signed then s.tail else s
  let ds := s1.takeWhile isDig
  let s2 := s1.dropWhile isDig
  if ds.isEmpty then none
  else
    let mkInt : Nat → Int := fun n => if signed then -(n : Int) else (n : Int)
    match s2 with
    | '.' :: s3 =>
      let fs := s3.takeWhile isDig
      let s4 := s3.dropWhile isDig
      if fs.isEmpty then none
      else some (.num (mkInt (digitsToNat (ds ++ fs))) fs.length, s4)
    | _ => some (.num (mkInt (digitsToNat ds)) 0, s2)

/-- The character denoted by a string escape, if the escape is one of the
common ones (unicode escapes are not modelled). -/
def escChar (e : Char) : Option Char :=
  if e = '"' then some '"'
  else if e = '\\' then some '\\'
  else if e = '/' then some '/'
  else if e = 'n' then some '\n'
  else if e = 't' then some '\t'
  else if e = 'r' then some '\r'
  else if e = 'b' then some '\x08'
  else if e = 'f' then some '\x0c'
  else none

/-- Parse the body of a JSON string after the opening quote. -/
def parseStrBody : Str → Option (Str × Str)
  | [] => none
  | '"' :: rest => some ([], rest)
  | '\\' :: e :: rest =>
    (match escChar e with
     | none => none
     | some c =>
       match parseStrBody rest with
       | none => none
       | some (cs, r) => some (c :: cs, r))
  | c :: rest =>
    match parseStrBody rest with
    | none => none
    | some (cs, r) => some (c :: cs, r)

mutual

/-- Parse one JSON value; returns the value and the unconsumed remainder. -/
def parseVal : Nat → Str → Option (Json × Str)
  | 0, _ => none
  | fuel + 1, s =>
    match s with
    | 'n' :: 'u' :: 'l' :: 'l' :: r => some (.null, r)
    | 't' :: 'r' :: 'u' :: 'e' :: r => some (.bool true, r)
    | 'f' :: 'a' :: 'l' :: 's' :: 'e' :: r => some (.bool false, r)
    | '"' :: r =>
      match parseStrBody r with
      | none => none
      | some (cs, rest) => some (.str cs, rest)
    | '[' :: r =>
      (match skipWs r with
       | ']' :: r2 => some (.arr [], r2)
       | s2 => parseArrItems fuel s2 [])
    | '{' :: r =>
      (match skipWs r with
       | '}' :: r2 => some (.obj [], r2)
       | s2 => parseObjItems fuel s2 [])
    | _ => parseNum s

/-- Parse the comma-separated items of a non-empty JSON array. -/
def parseArrItems : Nat → Str → List Json → Option (Json × Str)
  | 0, _, _ => none
  | fuel + 1, s, acc =>
    match parseVal fuel s with
    | none => none
    | some (v, rest) =>
      match skipWs rest with
      | ',' :: r2 => parseArrItems fuel (skipWs r2) (v :: acc)
      | ']' :: r2 => some (.arr (v :: acc).reverse, r2)
      | _ => none

/-- Parse the members of a non-empty JSON object. -/
def parseObjItems : Nat → Str → List (Str × Json) → Option (Json × Str)
  | 0, _, _ => none
  | fuel + 1, s, acc =>
    match s with
    | '"' :: r =>
      (match parseStrBody r with
       | none => none
       | some (k, rest) =>
         match skipWs rest with
         | ':' :: r2 =>
           (match parseVal fuel (skipWs r2) with
            | none => none
            | some (v, r3) =>
              match skipWs r3 with
              | ',' :: r4 => parseObjItems fuel (skipWs r4) ((k, v) :: acc)
              | '}' :: r4 => some (.obj ((k, v) :: acc).reverse, r4)
              | _ => none)
         | _ => none)
    | _ => none

end

/-- JSON.parse on a whole text: one value surrounded by optional
whitespace. -/
def jsonParse (s : Str) : Option Json :=
  match parseVal (s.length + 2) (skipWs s) with
  | some (v, rest) => if skipWs rest = [] then some v else none
  | none => none

/-- Shorthand to write model strings from literals. -/
def lit (s : String) : Str := s.data

/-! Markdown table repair: the processContent function of
src/frontend/src/App.jsx.  The normalisation step replaces every match of
the regular expression for a br tag (angle bracket, b, r, optional
whitespace, optional slash, closing angle bracket, case-insensitive) with a
newline, scanning left to right. -/

/-- Try to match the remainder of a br tag just after its opening angle
bracket; on success return the text following the tag. -/
def tryBr (s : Str) : Option Str :=
  match s with
  | b :: r :: rest =>
    if (b == 'b' || b == 'B') && (r == 'r' || r == 'R') then
      match rest.dropWhile wsChar with
      | '/' :: '>' :: r2 => some r2
      | '>' :: r2 => some r2
      | _ => none
    else none
  | _ => none

theorem tryBr_len {s r : Str} (h : tryBr s = some r) : r.length < s.length := by
  match s with
  | [] => simp [tryBr] at h
  | [c] => simp [tryBr] at h
  | b :: c :: rest =>
    simp only [tryBr] at h
    split at h
    · have hd : (rest.dropWhile wsChar).length ≤ rest.length :=
        (List.dropWhile_sublist _).length_le
      split at h <;> simp_all <;> omega
    · exact absurd h (by simp)

/-- Fueled scanner for the global replace of br tags by newlines; the fuel
only serves structural termination and any value at least the length of the
text is enough. -/
def brScanF : Nat → Str → Str
  | 0, s => s
  | _ + 1, [] => []
  | fuel + 1, c :: rest =>
    if c = '<' then
      match tryBr rest with
      | some r2 => '\n' :: brScanF fuel r2
      | none => c :: brScanF fuel rest
    else c :: brScanF fuel rest

/-- The global replace of br tags by newlines (content.replace with the br
regular expression and a newline). -/
def brScan (s : Str) : Str := brScanF s.length s

/-- The inline marker inserted between merged row fragments. -/
def brMark : Str := lit "<br>"

/-- Characters allowed inside a header-separator row. -/
def sepChar (c : Char) : Bool := wsChar c || c == '-' || c == ':' || c == '|'

/-- The header-separator test (the regular expression matching a pipe, one
or more separator-class characters, and a final pipe). -/
def isSepLine (t : Str) : Bool :=
  decide (3 ≤ t.length) && t.head? == some '|' && t.getLast? == some '|' &&
    ((t.drop 1).dropLast.all sepChar)

/-- The complete-row test: starts and ends with a pipe and is longer than
one character. -/
def isCompleteLine (t : Str) : Bool :=
  startsPipe t && endsPipe t && decide (1 < t.length)

/-- One pass of the line loop of processContent; the second argument is the
pending accumulator for a table row under reconstruction, and the final
force-close of a still-open pending row is included. -/
def procLines : List Str → Option Str → List Str
  | [], none => []
  | [], some p => [p ++ [' ', '|']]
  | line :: rest, some p =>
    let t := trim line
    if endsPipe t then (p ++ brMark ++ t) :: procLines rest none
    else if startsPipe t then (p ++ [' ', '|']) :: procLines rest (some t)
    else if t.isEmpty then (p ++ [' ', '|']) :: line :: procLines rest none
    else procLines rest (some (p ++ brMark ++ t))
  | line :: rest, none =>
    let t := trim line
    if isCompleteLine t || isSepLine t then line :: procLines rest none
    else if startsPipe t && !endsPipe t && decide (1 < t.length) then
      procLines rest (some t)
    else line :: procLines rest none

/-- The markdown table repair transform processContent. -/
def processContent (content : Str) : Str :=
  if content.isEmpty then content
  else
    let text := brScan content
    if !text.contains '|' then text
    else joinNl (procLines (splitNl text) none)

/-! The streaming pipeline of src/frontend/src/App.jsx (processStream):
frame decoding with the re-buffering recovery, and the per-event update of
the assistant message.  Block identities produced by Date.now() plus
Math.random() are modelled by an oracle indexed by the number of draws made
so far. -/

/-- A structured block as appended by processStream. -/
structure Block where
  btype : Str
  data : Option Json
  id : Int

/-- The assistant message state updated by processStream. -/
structure Msg where
  content : Str
  thinking : Option Json
  expertInfo : Option Json
  structuredBlocks : List Block
  isComplete : Bool

/-- The freshly created assistant message (content empty, thinking an empty
list, expertInfo null, no blocks, not complete). -/
def initMsg : Msg := ⟨[], some (.arr []), some .null, [], false⟩

/-- Test an event's type tag (the strict string comparison of the source:
false whenever the type field is missing or not a string). -/
def typeIs (e : Json) (t : String) : Bool :=
  match jget e (lit "type") with
  | some (.str s) => s == t.data
  | _ => false

/-- The set of structured event types. -/
def structuredTypes : List String :=
  ["table", "subsidy_calc", "merchant_card", "merchant_list",
   "process_steps", "checklist", "comparison", "sources",
   "quick_replies", "action_buttons"]

/-- Membership in the structured-type set. -/
def isStructured (e : Json) : Bool := structuredTypes.any (typeIs e)

/-- The type tag of an event known to carry a string type. -/
def typeStrOf (e : Json) : Str :=
  match jget e (lit "type") with
  | some (.str t) => t
  | _ => []

/-- The text fragment of a text or answer event: the content field if
truthy, else the content field of the data payload if truthy, else the
empty string. -/
def fragOf (e : Json) : Str :=
  let c1 := jget e (lit "content")
  let c2 :=
    match jget e (lit "data") with
    | some d => jget d (lit "content")
    | none => none
  match (if truthyOpt c1 then c1 else if truthyOpt c2 then c2 else none) with
  | some v => jsToStr v
  | none => []

/-- The message text of an error event, with its fallback. -/
def errMsgOf (e : Json) : Str :=
  let m1 :=
    match jget e (lit "data") with
    | some d => jget d (lit "message")
    | none => none
  let m2 := jget e (lit "message")
  match (if truthyOpt m1 then m1 else if truthyOpt m2 then m2 else none) with
  | some v => jsToStr v
  | none => lit "发生未知错误"

/-- The inline warning marker prefix appended to content on an error
event. -/
def warnMark : Str := lit "\n\n⚠️ "

/-- Apply one decoded event to the assistant message (the setMessages
updater of processStream); k counts identity-oracle draws. -/
def applyEvent (o : Nat → Int) (k : Nat) (m : Msg) (e : Json) : Msg × Nat :=
  if typeIs e "thinking" then
    ({ m with thinking := jget e (lit "content") }, k)
  else if typeIs e "answer" || typeIs e "text" then
    ({ m with content := m.content ++ fragOf e }, k)
  else if typeIs e "expert_debug" then
    ({ m with expertInfo := jget e (lit "data") }, k)
  else if typeIs e "error" then
    ({ m with content := m.content ++ warnMark ++ errMsgOf e }, k)
  else if isStructured e then
    ({ m with structuredBlocks :=
        m.structuredBlocks ++ [⟨typeStrOf e, jget e (lit "data"), o k⟩] }, k + 1)
  else (m, k)

/-- Apply the leftover-buffer event at end of stream (only answer, text and
structured types are handled there). -/
def applyFinal (o : Nat → Int) (k : Nat) (m : Msg) (e : Json) : Msg :=
  if typeIs e "answer" || typeIs e "text" then
    { m with content := m.content ++ fragOf e }
  else if isStructured e then
    { m with structuredBlocks :=
        m.structuredBlocks ++ [⟨typeStrOf e, jget e (lit "data"), o k⟩] }
  else m

/-- Decoder-plus-aggregator state: the message, the number of oracle draws,
the decoded events so far, and the line buffer. -/
structure DecSt where
  msg : Msg
  k : Nat
  events : List Json
  buffer : Str

/-- Process one candidate line: skip blank lines, apply parsed events, and
on a parse failure re-buffer the line when it starts with an opening
brace. -/
def procLine (o : Nat → Int) (st : DecSt) (line : Str) : DecSt :=
  if (trim line).isEmpty then st
  else
    match jsonParse line with
    | some e =>
      let p := applyEvent o st.k st.msg e
      { st with msg := p.1, k := p.2, events := st.events ++ [e] }
    | none =>
      if (trim line).head? == some '{' then
        { st with buffer := line ++ '\n' :: st.buffer }
      else st

/-- The last element of a split (the new buffer), empty for safety. -/
def lastD (ls : List Str) : Str := (ls.getLast?).getD []

/-- Consume one transport chunk: append to the buffer, split on newlines,
keep the trailing fragment as the new buffer and process the complete
lines. -/
def stepChunk (o : Nat → Int) (st : DecSt) (chunk : Str) : DecSt :=
  let parts := splitNl (st.buffer ++ chunk)
  (parts.dropLast).foldl (procLine o) { st with buffer := lastD parts }

/-- Run the read loop over a chunk sequence. -/
def runChunks (o : Nat → Int) (st : DecSt) (chunks : List Str) : DecSt :=
  chunks.foldl (stepChunk o) st

/-- End of stream: try the leftover buffer as a final event, then mark the
message complete. -/
def finishStream (o : Nat → Int) (st : DecSt) : Msg :=
  let m :=
    if !(trim st.buffer).isEmpty then
      match jsonParse st.buffer with
      | some e => applyFinal o st.k st.msg e
      | none => st.msg
    else st.msg
  { m with isComplete := true }

/-- The initial decoder state for a fresh response. -/
def initDecSt (m0 : Msg) : DecSt := ⟨m0, 0, [], []⟩

/-- The whole processStream pipeline on a chunk sequence. -/
def runStream (o : Nat → Int) (m0 : Msg) (chunks : List Str) : Msg :=
  finishStream o (runChunks o (initDecSt m0) chunks)

/-! Canonical (chunking-independent) view of a logical payload. -/

/-- The newline-terminated lines of a payload. -/
def completedLines (P : Str) : List Str := (splitNl P).dropLast

/-- The trailing fragment of a payload after its last newline. -/
def lastFrag (P : Str) : Str := lastD (splitNl P)

/-- A well-formed NDJSON payload: it ends with a newline and every
non-blank line parses. -/
def wellFormedB (P : Str) : Bool :=
  (lastFrag P).isEmpty &&
    (completedLines P).all (fun l => (trim l).isEmpty || (jsonParse l).isSome)

/-- The event objects of a well-formed payload, in line order. -/
def lineEvents (P : Str) : List Json :=
  (completedLines P).filterMap
    (fun l => if (trim l).isEmpty then none else jsonParse l)

/-- Ordered concatenation of the text fragments of the text and answer
events of an event list. -/
def fragsOf (es : List Json) : Str :=
  es.foldr
    (fun e acc =>
      (if typeIs e "answer" || typeIs e "text" then fragOf e else []) ++ acc)
    []

/-- No error event occurs in the event list. -/
def noErrorEvents (es : List Json) : Bool := es.all (fun e => !typeIs e "error")

/-! The response parsing module src/unnamed/part_000: parseLine, the
ResponseAggregator and its streamResponse decoder. -/

/-- parseLine: null on blank input, otherwise JSON.parse with failures
turned into null. -/
def parseLine (line : Str) : Option Json :=
  if line.isEmpty || (trim line).isEmpty then none else jsonParse line

/-- A recorded error entry (message and code may be undefined). -/
structure ErrEntry where
  message : Option Json
  code : Option Json

/-- The meta record of the aggregator. -/
structure MetaSt where
  sessionId : Option Json
  requestId : Option Json
  startTime : Option Json
  endTime : Option Json
  durationMs : Option Json
  collectionsUsed : Json

/-- The ResponseAggregator state after reset(). -/
structure AggSt where
  answer : Str
  thinking : List Json
  sources : List Json
  subsidyCalc : Option Json
  merchants : List (Option Json)
  processSteps : Json
  tables : List (Option Json)
  quickReplies : Json
  actionButtons : Json
  errors : List ErrEntry
  meta : MetaSt

/-- The state produced by reset(). -/
def aggReset : AggSt :=
  ⟨[], [], [], some .null, [], .arr [], [], .arr [], .arr [], [],
    ⟨some .null, some .null, some .null, some .null, some .null, .arr []⟩⟩

/-- Member access on the destructured data payload; none models the thrown
TypeError when data is undefined or null. -/
def dget (data : Option Json) (k : Str) : Option (Option Json) :=
  match data with
  | none => none
  | some .null => none
  | some j => some (jget j k)

/-- JavaScript array concat spreads array arguments one level and appends
other values. -/
def concatSpread : Json → List Json
  | .arr l => l
  | v => [v]

/-- The value appended by answer events: data.content if truthy coerced to
a string, else the empty string. -/
def optFragStr (c : Option Json) : Str :=
  match c with
  | some v => if truthy v then jsToStr v else []
  | none => []

/-- ResponseAggregator.process on one parsed chunk; now is the Date.now()
value read on a stream_end event; none models a thrown TypeError. -/
def AggSt.process (now : Int) (st : AggSt) (chunk : Json) : Option AggSt :=
  if !truthy chunk then some st
  else
    let ty := jget chunk (lit "type")
    if !truthyOpt ty then some st
    else
      match ty with
      | some (.str t) =>
        let data := jget chunk (lit "data")
        if t == lit "answer" then
          match dget data (lit "content") with
          | none => none
          | some c => some { st with answer := st.answer ++ optFragStr c }
        else if t == lit "thinking" then
          match dget data (lit "logs") with
          | none => none
          | some lg =>
            if truthyOpt lg then
              some { st with thinking := st.thinking ++ concatSpread (lg.getD .null) }
            else some st
        else if t == lit "sources" then
          match data with
          | some (.arr l) => some { st with sources := st.sources ++ l }
          | _ => some st
        else if t == lit "subsidy_calc" then some { st with subsidyCalc := data }
        else if t == lit "merchant_card" then
          some { st with merchants := st.merchants ++ [data] }
        else if t == lit "merchant_list" then
          match dget data (lit "merchants") with
          | none => none
          | some v =>
            if truthyOpt v then
              some { st with merchants :=
                st.merchants ++ (concatSpread (v.getD .null)).map some }
            else some st
        else if t == lit "process_steps" then
          match dget data (lit "steps") with
          | none => none
          | some v =>
            if truthyOpt v then some { st with processSteps := v.getD .null }
            else some st
        else if t == lit "table" then
          some { st with tables := st.tables ++ [data] }
        else if t == lit "quick_replies" then
          match dget data (lit "replies") with
          | none => none
          | some v =>
            if truthyOpt v then some { st with quickReplies := v.getD .null }
            else some st
        else if t == lit "action_buttons" then
          match dget data (lit "buttons") with
          | none => none
          | some v =>
            if truthyOpt v then some { st with actionButtons := v.getD .null }
            else some st
        else if t == lit "error" then
          match dget data (lit "message"), dget data (lit "code") with
          | some m, some c => some { st with errors := st.errors ++ [⟨m, c⟩] }
          | _, _ => none
        else if t == lit "stream_start" then
          match dget data (lit "session_id"), dget data (lit "request_id"),
              dget data (lit "start_time") with
          | some a, some b, some c =>
            some { st with meta :=
              { st.meta with sessionId := a, requestId := b, startTime := c } }
          | _, _, _ => none
        else if t == lit "stream_end" then
          match dget data (lit "duration_ms"), dget data (lit "collections_used") with
          | some d, some cu =>
            some { st with meta :=
              { st.meta with
                durationMs := d,
                collectionsUsed := if truthyOpt cu then cu.getD .null else .arr [],
                endTime := some (.num now 0) } }
          | _, _ => none
        else some st
      | _ => some st

/-- JavaScript length-greater-than-zero on an arbitrary value, as used by
getResult on processSteps. -/
def jsLenGt0 : Json → Bool
  | .arr l => !l.isEmpty
  | .str s => !s.isEmpty
  | .obj fs =>
    (match jget (.obj fs) (lit "length") with
     | some (.num m _) => decide (0 < m)
     | _ => false)
  | _ => false

/-- The derived flags of getResult. -/
structure AggResult where
  hasError : Bool
  hasStructuredData : Bool

/-- ResponseAggregator.getResult, restricted to its derived flags (the
other fields are returned verbatim from the state). -/
def AggSt.getResult (st : AggSt) : AggResult :=
  ⟨!st.errors.isEmpty,
   truthyOpt st.subsidyCalc || !st.merchants.isEmpty ||
     jsLenGt0 st.processSteps || !st.tables.isEmpty⟩

/-- One chunk step of the part_000 streamResponse decoder: split off
complete lines, drop lines parseLine rejects, keep the trailing
fragment. -/
def p0Step (st : List Json × Str) (chunk : Str) : List Json × Str :=
  let parts := splitNl (st.2 ++ chunk)
  (st.1 ++ (parts.dropLast).filterMap parseLine, lastD parts)

/-- The part_000 streamResponse decoder over a chunk sequence (events
yielded so far and the buffer). -/
def p0Run (chunks : List Str) : List Json × Str :=
  chunks.foldl p0Step ([], [])

/-- The events yielded by streamResponse including the final leftover
buffer attempt. -/
def p0Events (chunks : List Str) : List Json :=
  let r := p0Run chunks
  r.1 ++ (if !r.2.isEmpty then (parseLine r.2).toList else [])

/-! Helper views used by the statements below. -/

/-- Apply a list of events in order (the sequential setMessages updates of
the read loop), threading the identity-oracle draw count. -/
def applyEvents (o : Nat → Int) (m : Msg) (k : Nat) : List Json → Msg × Nat
  | [] => (m, k)
  | e :: rest =>
    let p := applyEvent o k m e
    applyEvents o p.1 p.2 rest

/-- The structured blocks created while applying an event list, in arrival
order. -/
def blocksOf (o : Nat → Int) (k : Nat) : List Json → List Block
  | [] => []
  | e :: rest =>
    if typeIs e "thinking" then blocksOf o k rest
    else if typeIs e "answer" || typeIs e "text" then blocksOf o k rest
    else if typeIs e "expert_debug" then blocksOf o k rest
    else if typeIs e "error" then blocksOf o k rest
    else if isStructured e then
      ⟨typeStrOf e, jget e (lit "data"), o k⟩ :: blocksOf o (k + 1) rest
    else blocksOf o k rest

/-- The events decoded from a list of complete candidate lines (blank lines
skipped, the rest parsed). -/
def lineEvs (ls : List Str) : List Json :=
  ls.filterMap (fun l => if (trim l).isEmpty then none else jsonParse l)

/-- Prepend a fragment to the first piece of a split. -/
def consHead (p : Str) : List Str → List Str
  | [] => [p]
  | q :: qs => (p ++ q) :: qs

/-- The canonical (chunking-independent) decoder state after consuming the
logical payload P: the events of the complete lines, the message obtained by
applying them in order, and the trailing fragment as buffer. -/
def canonDec (o : Nat → Int) (m0 : Msg) (P : Str) : DecSt :=
  ⟨(applyEvents o m0 0 (lineEvents P)).1, (applyEvents o m0 0 (lineEvents P)).2,
   lineEvents P, lastFrag P⟩

/-- n copies of the malformed chunk used to exhibit unbounded re-buffering:
an opening brace, a letter, and a newline. -/
def repBad : Nat → Str
  | 0 => []
  | n + 1 => lit "\x7ba\n" ++ repBad n

/-- A string free of newline characters. -/
def noNl (s : Str) : Bool := !s.contains '\n'

/-- A string free of angle brackets (in particular free of br markup). -/
def noLt (s : Str) : Bool := !s.contains '<'

/-- Join row pieces with the inline br marker. -/
def unbr (ps : List Str) : Str := List.intercalate brMark ps

/-- The condition under which a line opens a pending table row: its trimmed
form starts with a pipe, does not end with one, and is longer than one
character. -/
def openerCond (t : Str) : Bool := startsPipe t && !endsPipe t && decide (1 < t.length)

/-- A valid first piece of a reconstructed row. -/
def openerP (t : Str) : Bool :=
  (trim t == t) && startsPipe t && !endsPipe t && decide (1 < t.length) && noLt t && noNl t

/-- A valid middle piece of a reconstructed row: trimmed, non-empty, and
touching no pipe at either end. -/
def midP (t : Str) : Bool :=
  (trim t == t) && !t.isEmpty && !startsPipe t && !endsPipe t && noLt t && noNl t

/-- A valid closing piece of a reconstructed row: trimmed and ending with a
pipe. -/
def closerP (t : Str) : Bool := (trim t == t) && endsPipe t && noLt t && noNl t

/-- Symbolic shape of one output line of the repair pass: either a line
passed through unchanged, or a reconstructed row made of an opening piece,
middle pieces and a closing piece. -/
inductive ERep where
  | pass (l : Str) : ERep
  | row (p0 : Str) (ms : List Str) (cl : Str) : ERep

/-- The output line an ERep denotes. -/
def ERep.render : ERep → Str
  | .pass l => l
  | .row p0 ms cl => unbr (p0 :: ms ++ [cl])

/-- The pieces a rendered output line falls back into when its br markers
are turned into newlines again. -/
def ERep.piecesOf : ERep → List Str
  | .pass l => [l]
  | .row p0 ms cl => p0 :: ms ++ [cl]

/-- Well-formedness of an output-line shape: passthrough lines never open a
pending row; row pieces satisfy the piece predicates. -/
def ERep.good : ERep → Bool
  | .pass l => noLt l && noNl l && !openerCond (trim l)
  | .row p0 ms cl => openerP p0 && ms.all midP && closerP cl

/-! Cancellation: the stopGeneration handler of App.jsx. -/

/-- The fields of a conversation message relevant to cancellation. -/
structure ChatMsg where
  role : Str
  content : Str
  isComplete : Bool

/-- The placeholder inserted when generation is stopped before any content
arrived. -/
def stopPlaceholder : Str := lit "（已停止生成）"

/-- The per-message update performed by stopGeneration. -/
def stopUpdate (m : ChatMsg) : ChatMsg :=
  if m.role == lit "assistant" && !m.isComplete then
    { m with isComplete := true,
             content := if m.content ≠ [] then m.content else stopPlaceholder }
  else m

/-- stopGeneration maps the update over the message list. -/
def stopGeneration (msgs : List ChatMsg) : List ChatMsg := msgs.map stopUpdate

/-! Utility lemmas about splitting and joining. -/

theorem splitNl_ne_nil (s : Str) : splitNl s ≠ [] := by
  induction s with
  | nil => simp [splitNl]
  | cons c rest ih =>
    simp only [splitNl]
    split
    · simp
    · split <;> simp

theorem consHead_ne_nil (p : Str) (ls : List Str) : consHead p ls ≠ [] := by
  cases ls <;> simp [consHead]

theorem noNl_cons {x : Char} {f : Str} (h : noNl (x :: f) = true) :
    ¬ x = '\n' ∧ noNl f = true := by
  simp [noNl, List.contains_cons] at h ⊢
  exact ⟨fun he => h.1 he.symm, h.2⟩

theorem splitNl_append_noNl (f c : Str) (hf : noNl f = true) :
    splitNl (f ++ c) = consHead f (splitNl c) := by
  induction f with
  | nil =>
    cases h : splitNl c with
    | nil => exact absurd h (splitNl_ne_nil c)
    | cons q qs => simp [consHead, h]
  | cons x f2 ih =>
    obtain ⟨hx, hf2⟩ := noNl_cons hf
    cases h : splitNl c with
    | nil => exact absurd h (splitNl_ne_nil c)
    | cons q qs =>
      have hval : splitNl (f2 ++ c) = (f2 ++ q) :: qs := by
        rw [ih hf2, h]
        rfl
      simp [List.cons_append, splitNl, if_neg hx, hval, consHead]

theorem splitNl_noNl (s : Str) (hs : noNl s = true) : splitNl s = [s] := by
  have h := splitNl_append_noNl s [] hs
  simpa [splitNl, consHead] using h

theorem splitNl_mem_noNl (s : Str) : ∀ p ∈ splitNl s, noNl p = true := by
  induction s with
  | nil => simp [splitNl, noNl]
  | cons c rest ih =>
    intro p hp
    simp only [splitNl] at hp
    by_cases hc : c = '\n'
    · rw [if_pos hc] at hp
      rcases List.mem_cons.mp hp with h | h
      · simp [h, noNl]
      · exact ih p h
    · rw [if_neg hc] at hp
      rcases hq : splitNl rest with _ | ⟨q, qs⟩
      · exact absurd hq (splitNl_ne_nil rest)
      · rw [hq] at hp
        rcases List.mem_cons.mp hp with h | h
        · subst h
          have hqm : noNl q = true := ih q (by rw [hq]; exact List.mem_cons_self q qs)
          simp [noNl, List.contains_cons] at hqm ⊢
          exact ⟨fun he => hc he.symm, hqm⟩
        · exact ih p (by rw [hq]; exact List.mem_cons_of_mem q h)

theorem lastD_cons_cons (p q : Str) (qs : List Str) :
    lastD (p :: q :: qs) = lastD (q :: qs) := by
  simp [lastD, List.getLast?_cons_cons]

theorem splitNl_append (a b : Str) :
    splitNl (a ++ b) =
      (splitNl a).dropLast ++ consHead (lastD (splitNl a)) (splitNl b) := by
  induction a with
  | nil =>
    cases h : splitNl b with
    | nil => exact absurd h (splitNl_ne_nil b)
    | cons q qs => simp [splitNl, lastD, consHead, h]
  | cons c rest ih =>
    by_cases hc : c = '\n'
    · subst hc
      rcases hq : splitNl rest with _ | ⟨p, ps⟩
      · exact absurd hq (splitNl_ne_nil rest)
      · rw [hq] at ih
        simp only [List.cons_append, splitNl, if_pos rfl, ih, hq,
          List.dropLast_cons₂, lastD_cons_cons]
        simpa [lastD] using ih
    · rcases hq : splitNl rest with _ | ⟨p, ps⟩
      · exact absurd hq (splitNl_ne_nil rest)
      · rw [hq] at ih
        cases ps with
        | nil =>
          cases hb : splitNl b with
          | nil => exact absurd hb (splitNl_ne_nil b)
          | cons q qs =>
            rw [hb] at ih
            have hval : splitNl (rest ++ b) = (p ++ q) :: qs := by
              simpa [lastD, consHead] using ih
            simp [List.cons_append, splitNl, if_neg hc, hval, hq, lastD, consHead]
        | cons x xs =>
          rcases hch : consHead (lastD (x :: xs)) (splitNl b) with _ | ⟨q, qs⟩
          · exact absurd hch (consHead_ne_nil _ _)
          · have hval : splitNl (rest ++ b) = p :: ((x :: xs).dropLast ++ q :: qs) := by
              rw [ih]
              simp [List.dropLast_cons₂, lastD_cons_cons, hch]
            simp [List.cons_append, splitNl, if_neg hc, hval, hq,
              List.dropLast_cons₂, lastD_cons_cons, hch]

theorem joinNl_cons_cons (l m : Str) (L : List Str) :
    joinNl (l :: m :: L) = l ++ '\n' :: joinNl (m :: L) := by
  simp [joinNl, List.intercalate, List.intersperse]

theorem splitNl_joinNl (L : List Str) (hne : L ≠ [])
    (h : ∀ p ∈ L, noNl p = true) : splitNl (joinNl L) = L := by
  induction L with
  | nil => exact absurd rfl hne
  | cons l L2 ih =>
    cases L2 with
    | nil =>
      simpa [joinNl, List.intercalate] using splitNl_noNl l (h l (by simp))
    | cons m L3 =>
      rw [joinNl_cons_cons, splitNl_append_noNl l _ (h l (by simp))]
      have h2 : splitNl ('\n' :: joinNl (m :: L3)) = [] :: splitNl (joinNl (m :: L3)) := by
        simp [splitNl]
      rw [h2, ih (by simp) (fun p hp => h p (List.mem_cons_of_mem l hp))]
      simp [consHead]

/-! General lemmas about the embedded values. -/

theorem lit_inj {a b : String} : lit a = lit b ↔ a = b :=
  ⟨fun h => by cases a; cases b; simp [lit] at h; simp [h], fun h => h ▸ rfl⟩

theorem lit_ne_nil {a : String} (h : a ≠ "") : lit a ≠ ([] : Str) := by
  cases a with
  | mk l =>
    intro hl
    apply h
    simp [lit] at hl
    simp [hl]

theorem jget_obj {e : Json} {k : Str} {v : Json} (h : jget e k = some v) :
    ∃ fs, e = Json.obj fs := by
  cases e <;> simp [jget] at h
  exact ⟨_, rfl⟩

theorem typeIs_eq_true_iff {e : Json} {a : String} :
    typeIs e a = true ↔ jget e (lit "type") = some (.str (lit a)) := by
  unfold typeIs
  rcases h : jget e (lit "type") with _ | v
  · simp
  · rcases v with _ | b | ⟨m, ex⟩ | s | l | fs <;> simp [lit]

theorem typeIs_ne {e : Json} {a b : String} (ha : typeIs e a = true)
    (hne : a ≠ b) : typeIs e b = false := by
  have h1 := typeIs_eq_true_iff.mp ha
  rw [Bool.eq_false_iff]
  intro hb
  have h2 := typeIs_eq_true_iff.mp hb
  rw [h1] at h2
  simp only [Option.some.injEq, Json.str.injEq] at h2
  exact hne (lit_inj.mp h2)

/-! Claim C9: cancellation. -/

/-- Claim C9 (amended): stopGeneration marks every incomplete assistant
message complete; its content is preserved exactly when it is non-empty,
while an empty content is replaced by the stop placeholder (so cancellation
with empty content does not leave the content empty as the original claim
states). -/
theorem stopGeneration_preserves_content (msgs : List ChatMsg) (m : ChatMsg)
    (hm : m ∈ msgs) (hrole : m.role = lit "assistant")
    (hinc : m.isComplete = false) :
    stopUpdate m ∈ stopGeneration msgs ∧
    (stopUpdate m).isComplete = true ∧
    (stopUpdate m).content = (if m.content = [] then stopPlaceholder else m.content) := by
  refine ⟨List.mem_map_of_mem _ hm, ?_, ?_⟩ <;>
    simp [stopUpdate, hrole, hinc, ite_not]

/-- Witness for C9: stopping after the content Hel arrived keeps exactly
that content and completes the message. -/
theorem stopGeneration_preserves_content_witness :
    stopUpdate ⟨lit "assistant", lit "Hel", false⟩ ∈
      stopGeneration [⟨lit "assistant", lit "Hel", false⟩] ∧
    (stopUpdate ⟨lit "assistant", lit "Hel", false⟩).isComplete = true ∧
    (stopUpdate ⟨lit "assistant", lit "Hel", false⟩).content =
      (if (lit "Hel" : Str) = [] then stopPlaceholder else lit "Hel") :=
  stopGeneration_preserves_content [⟨lit "assistant", lit "Hel", false⟩] _
    (List.mem_singleton_self _) rfl rfl

/-- Counterexample for C9 as stated: aborting while content is still empty
does not leave it empty; the placeholder text is inserted instead. -/
theorem stopGeneration_empty_content_replaced :
    (stopGeneration [⟨lit "assistant", [], false⟩]).map ChatMsg.content =
      [stopPlaceholder] ∧ stopPlaceholder ≠ ([] : Str) := by
  exact ⟨rfl, by decide⟩

/-! Claim C10: the derived flags of getResult. -/

/-- Claim C10 (amended): for every aggregator state, hasError holds exactly
when the errors list is non-empty, and hasStructuredData holds exactly when
subsidyCalc holds a JavaScript-truthy value, or merchants or tables is
non-empty, or processSteps has positive JavaScript length. -/
theorem getResult_flags_consistent (st : AggSt) :
    (st.getResult.hasError = true ↔ st.errors ≠ []) ∧
    (st.getResult.hasStructuredData = true ↔
      (truthyOpt st.subsidyCalc = true ∨ st.merchants ≠ [] ∨
        jsLenGt0 st.processSteps = true ∨ st.tables ≠ [])) := by
  constructor <;> simp [AggSt.getResult, List.isEmpty_iff, or_assoc]

/-- Counterexample for C10 as stated: a subsidy_calc event whose payload is
the number zero leaves subsidyCalc set (non-null) yet hasStructuredData
false, so set-ness of subsidyCalc does not imply the flag. -/
theorem getResult_subsidy_zero_counterexample :
    ((AggSt.process 0 aggReset
        (Json.obj [(lit "type", .str (lit "subsidy_calc")),
                   (lit "data", .num 0 0)])).getD aggReset).subsidyCalc =
      some (.num 0 0) ∧
    Json.num 0 0 ≠ Json.null ∧
    ((AggSt.process 0 aggReset
        (Json.obj [(lit "type", .str (lit "subsidy_calc")),
                   (lit "data", .num 0 0)])).getD aggReset).getResult.hasStructuredData
      = false := by
  refine ⟨rfl, by simp, rfl⟩

/-! Claim C6: the thinking merge rule. -/

/-- Claim C6 (amended): the App.jsx stream processor replaces the thinking
field wholesale with the event's content; the part_000 ResponseAggregator
instead concatenates the event's logs onto the existing trace, so only one
of the two aggregators implements replace-wholesale. -/
theorem thinking_replace_and_concat :
    (∀ (o : Nat → Int) (k : Nat) (m : Msg) (e : Json),
        typeIs e "thinking" = true →
        applyEvent o k m e = ({ m with thinking := jget e (lit "content") }, k)) ∧
    (∀ (now : Int) (st : AggSt) (e : Json) (lg : List Json),
        jget e (lit "type") = some (.str (lit "thinking")) →
        dget (jget e (lit "data")) (lit "logs") = some (some (.arr lg)) →
        AggSt.process now st e = some { st with thinking := st.thinking ++ lg }) := by
  constructor
  · intro o k m e h
    simp [applyEvent, h]
  · intro now st e lg h hlg
    obtain ⟨fs, rfl⟩ := jget_obj h
    simp [AggSt.process, h, hlg, truthy, truthyOpt, concatSpread, lit_inj,
      lit_ne_nil]

/-- Witness for C6: a concrete thinking event replaces the thinking field in
the stream processor, and a concrete logs event extends the part_000
trace. -/
theorem thinking_replace_and_concat_witness :
    applyEvent (fun _ => 0) 0 initMsg
        (.obj [(lit "type", .str (lit "thinking")), (lit "content", .str (lit "t1"))]) =
      ({ initMsg with thinking := some (.str (lit "t1")) }, 0) ∧
    AggSt.process 0 { aggReset with thinking := [.str (lit "a")] }
        (.obj [(lit "type", .str (lit "thinking")),
               (lit "data", .obj [(lit "logs", .arr [.str (lit "b")])])]) =
      some { aggReset with thinking := [.str (lit "a"), .str (lit "b")] } :=
  ⟨thinking_replace_and_concat.1 _ _ _ _ rfl,
   thinking_replace_and_concat.2 0 _ _ [.str (lit "b")] rfl rfl⟩

/-- Counterexample for C6 as stated: the part_000 aggregator does not
replace the trace; applying a thinking event with the single log b to a
state whose trace is the single log a yields the two-element trace, not the
event's log list. -/
theorem thinking_concat_counterexample :
    ((AggSt.process 0 { aggReset with thinking := [.str (lit "a")] }
        (.obj [(lit "type", .str (lit "thinking")),
               (lit "data", .obj [(lit "logs", .arr [.str (lit "b")])])])).getD
      aggReset).thinking = [.str (lit "a"), .str (lit "b")] ∧
    ([.str (lit "a"), .str (lit "b")] : List Json) ≠ [.str (lit "b")] := by
  refine ⟨rfl, ?_⟩
  intro h
  simpa using congrArg List.length h

/-! Claim C7: structured blocks. -/

theorem applyEvent_blocks (o : Nat → Int) (k : Nat) (m : Msg) (e : Json) :
    (applyEvent o k m e).1.structuredBlocks =
      m.structuredBlocks ++ blocksOf o k [e] ∧
    (applyEvent o k m e).2 = k + (blocksOf o k [e]).length := by
  simp only [applyEvent, blocksOf]
  split_ifs <;> simp

/-- Claim C7 (amended): structuredBlocks is append-only — applying any
event sequence appends the blocks of the structured events, in arrival
order, after the existing blocks; each appended block's identity is the
next value of the Date.now-plus-Math.random oracle, not an
aggregator-assigned monotonic sequence number. -/
theorem structuredBlocks_append_only (o : Nat → Int) (es : List Json)
    (m : Msg) (k : Nat) :
    (applyEvents o m k es).1.structuredBlocks =
      m.structuredBlocks ++ blocksOf o k es := by
  induction es generalizing m k with
  | nil => simp [applyEvents, blocksOf]
  | cons e rest ih =>
    have hb := applyEvent_blocks o k m e
    simp only [applyEvents, ih, hb.1]
    simp only [blocksOf]
    split_ifs <;> simp_all [applyEvent, blocksOf]

/-- Counterexample for C7 as stated: with oracle draws 5 then 3 (a
non-monotonic pair, as client time plus randomness may produce), the two
appended blocks carry identities 5 and 3, which are not strictly
increasing. -/
theorem block_ids_not_monotonic :
    ((applyEvents (fun n => if n = 0 then 5 else 3) initMsg 0
        [.obj [(lit "type", .str (lit "table")), (lit "data", .null)],
         .obj [(lit "type", .str (lit "table")), (lit "data", .null)]]).1.structuredBlocks).map
      Block.id = [5, 3] ∧
    ¬ List.Sorted (· < ·) ([5, 3] : List Int) := by
  refine ⟨rfl, by decide⟩

/-! Claim C8: the error event. -/

/-- Claim C8 (amended): the two effects live in different code paths — the
part_000 aggregator appends the message-code pair to errors and leaves the
answer text unchanged, while the App.jsx stream processor appends the
inline warning marker to content and keeps no errors list; no single path
does both on one event. -/
theorem error_event_effects_split :
    (∀ (now : Int) (st : AggSt) (e : Json) (m c : Option Json),
        jget e (lit "type") = some (.str (lit "error")) →
        dget (jget e (lit "data")) (lit "message") = some m →
        dget (jget e (lit "data")) (lit "code") = some c →
        AggSt.process now st e = some { st with errors := st.errors ++ [⟨m, c⟩] }) ∧
    (∀ (o : Nat → Int) (k : Nat) (msg : Msg) (e : Json),
        typeIs e "error" = true →
        applyEvent o k msg e =
          ({ msg with content := msg.content ++ warnMark ++ errMsgOf e }, k)) := by
  constructor
  · intro now st e m c h hm hc
    obtain ⟨fs, rfl⟩ := jget_obj h
    simp [AggSt.process, h, hm, hc, truthy, truthyOpt, lit_inj, lit_ne_nil]
  · intro o k msg e h
    simp [applyEvent, h,
      typeIs_ne h (by decide : "error" ≠ "thinking"),
      typeIs_ne h (by decide : "error" ≠ "answer"),
      typeIs_ne h (by decide : "error" ≠ "text"),
      typeIs_ne h (by decide : "error" ≠ "expert_debug")]

/-- Witness for C8: the spec's example error event appends the rate-limited
entry to errors in part_000 and appends the warning marker to content in
the stream processor. -/
theorem error_event_effects_split_witness :
    AggSt.process 0 aggReset
        (.obj [(lit "type", .str (lit "error")),
               (lit "data", .obj [(lit "message", .str (lit "rate limited")),
                                  (lit "code", .str (lit "429"))])]) =
      some { aggReset with errors :=
        aggReset.errors ++ [⟨some (.str (lit "rate limited")), some (.str (lit "429"))⟩] } ∧
    applyEvent (fun _ => 0) 0 initMsg
        (.obj [(lit "type", .str (lit "error")),
               (lit "data", .obj [(lit "message", .str (lit "rate limited")),
                                  (lit "code", .str (lit "429"))])]) =
      ({ initMsg with content := lit "\n\n⚠️ rate limited" }, 0) :=
  ⟨error_event_effects_split.1 0 aggReset _ _ _ rfl rfl rfl,
   error_event_effects_split.2 _ 0 initMsg _ rfl⟩

/-- Counterexample for C8 as stated: in the part_000 aggregator the error
event records the entry but adds no visible marker — the answer text stays
empty, refuting that both effects occur on the same event. -/
theorem error_event_no_marker_counterexample :
    ((AggSt.process 0 aggReset
        (.obj [(lit "type", .str (lit "error")),
               (lit "data", .obj [(lit "message", .str (lit "rate limited")),
                                  (lit "code", .str (lit "429"))])])).getD
      aggReset).errors.length = 1 ∧
    ((AggSt.process 0 aggReset
        (.obj [(lit "type", .str (lit "error")),
               (lit "data", .obj [(lit "message", .str (lit "rate limited")),
                                  (lit "code", .str (lit "429"))])])).getD
      aggReset).answer = [] := by
  exact ⟨rfl, rfl⟩

/-! Claim C5: malformed-line handling. -/

theorem repBad_append_one (m : Nat) :
    repBad m ++ lit "\x7ba\n" = repBad (m + 1) := by
  induction m with
  | zero => simp [repBad]
  | succ m ih =>
    show (lit "\x7ba\n" ++ repBad m) ++ lit "\x7ba\n" = repBad (m + 1 + 1)
    rw [List.append_assoc, ih]
    rfl

theorem splitNl_repBad (m : Nat) :
    splitNl (repBad m) = List.replicate m (lit "\x7ba") ++ [[]] := by
  induction m with
  | zero => simp [repBad, splitNl]
  | succ m ih =>
    have hstep : splitNl (repBad (m + 1)) = lit "\x7ba" :: splitNl (repBad m) := by
      show splitNl ('{' :: 'a' :: '\n' :: repBad m) = _
      simp [splitNl, lit]
    rw [hstep, ih]
    simp [List.replicate_succ, lit]

theorem procLine_bad (o : Nat → Int) (st : DecSt) :
    procLine o st (lit "\x7ba") = { st with buffer := lit "\x7ba\n" ++ st.buffer } := rfl

theorem foldl_bad_lines (o : Nat → Int) (m : Nat) (st : DecSt) :
    List.foldl (procLine o) st (List.replicate m (lit "\x7ba")) =
      { st with buffer := repBad m ++ st.buffer } := by
  induction m generalizing st with
  | zero => simp [repBad]
  | succ m ih =>
    rw [List.replicate_succ, List.foldl_cons, procLine_bad, ih]
    simp [← repBad_append_one, List.append_assoc]

theorem stepChunk_bad (o : Nat → Int) (st : DecSt) (k : Nat)
    (hb : st.buffer = repBad k) :
    stepChunk o st (lit "\x7ba\n") = { st with buffer := repBad (k + 1) } := by
  unfold stepChunk
  simp only [hb, repBad_append_one, splitNl_repBad]
  rw [List.dropLast_concat, foldl_bad_lines]
  simp [lastD, List.getLast?_concat]

theorem runChunks_bad (o : Nat → Int) (n : Nat) (st : DecSt) (k : Nat)
    (hb : st.buffer = repBad k) :
    runChunks o st (List.replicate n (lit "\x7ba\n")) =
      { st with buffer := repBad (k + n) } := by
  induction n generalizing st k with
  | zero =>
    obtain ⟨msg, kk, ev, buf⟩ := st
    simp only at hb
    simp [runChunks, hb]
  | succ n ih =>
    rw [List.replicate_succ]
    show runChunks o (stepChunk o st (lit "\x7ba\n")) (List.replicate n (lit "\x7ba\n")) = _
    rw [stepChunk_bad o st k hb, ih _ (k + 1) rfl]
    have : k + 1 + n = k + (n + 1) := by omega
    rw [this]

theorem repBad_length (n : Nat) : (repBad n).length = 3 * n := by
  induction n with
  | zero => simp [repBad]
  | succ n ih =>
    show (lit "\x7ba\n" ++ repBad n).length = 3 * (n + 1)
    have h3 : (lit "\x7ba\n").length = 3 := rfl
    simp [h3, ih]
    omega

theorem p0Run_bad (n : Nat) :
    List.foldl p0Step ([], []) (List.replicate n (lit "\x7ba\n")) = ([], []) := by
  induction n with
  | zero => rfl
  | succ n ih =>
    rw [List.replicate_succ, List.foldl_cons]
    have hstep : p0Step ([], []) (lit "\x7ba\n") = ([], []) := rfl
    rw [hstep, ih]

/-- Claim C5 (code evaluation at the failing input): after n copies of the
chunk left-brace-a-newline, the processStream decoder still holds every
malformed line — its buffer is the n-fold concatenation, of length 3 n,
growing without bound and never dropped — whereas the part_000
streamResponse decoder drops each malformed line and keeps an empty
buffer. -/
theorem malformed_rebuffer_growth (n : Nat) :
    (runChunks (fun _ => 0) (initDecSt initMsg)
        (List.replicate n (lit "\x7ba\n"))).buffer = repBad n ∧
    (repBad n).length = 3 * n ∧
    p0Run (List.replicate n (lit "\x7ba\n")) = ([], []) := by
  refine ⟨?_, repBad_length n, p0Run_bad n⟩
  rw [runChunks_bad (fun _ => 0) n (initDecSt initMsg) 0 rfl]
  simp

/-! Claims C1 and C2: decoder correctness on well-formed payloads. -/

theorem lastD_mem (ls : List Str) (h : ls ≠ []) : lastD ls ∈ ls := by
  unfold lastD
  rw [List.getLast?_eq_getLast_of_ne_nil h]
  exact List.getLast_mem h

theorem lineEvents_eq (P : Str) : lineEvents P = lineEvs (completedLines P) := rfl

theorem lineEvs_append (a b : List Str) :
    lineEvs (a ++ b) = lineEvs a ++ lineEvs b := by
  simp [lineEvs, List.filterMap_append]

theorem applyEvents_append (o : Nat → Int) (m : Msg) (k : Nat)
    (es1 es2 : List Json) :
    applyEvents o m k (es1 ++ es2) =
      applyEvents o (applyEvents o m k es1).1 (applyEvents o m k es1).2 es2 := by
  induction es1 generalizing m k with
  | nil => simp [applyEvents]
  | cons e rest ih =>
    simp only [List.cons_append, applyEvents]
    exact ih _ _

theorem foldl_procLine_ok (o : Nat → Int) (ls : List Str) (st : DecSt)
    (hok : ∀ l ∈ ls, (trim l).isEmpty = true ∨ (jsonParse l).isSome = true) :
    List.foldl (procLine o) st ls =
      ⟨(applyEvents o st.msg st.k (lineEvs ls)).1,
       (applyEvents o st.msg st.k (lineEvs ls)).2,
       st.events ++ lineEvs ls, st.buffer⟩ := by
  induction ls generalizing st with
  | nil =>
    obtain ⟨m, k, ev, buf⟩ := st
    simp [lineEvs, applyEvents]
  | cons l rest ih =>
    have hrest : ∀ x ∈ rest, (trim x).isEmpty = true ∨ (jsonParse x).isSome = true :=
      fun x hx => hok x (by simp [hx])
    by_cases hb : (trim l).isEmpty = true
    · have hstep : procLine o st l = st := by
        simp [procLine, hb]
      have hev : lineEvs (l :: rest) = lineEvs rest := by
        simp [lineEvs, List.isEmpty_iff.mp hb]
      rw [List.foldl_cons, hstep, hev, ih _ hrest]
    · have hsome : (jsonParse l).isSome = true := by
        rcases hok l (by simp) with h | h
        · exact absurd h hb
        · exact h
      obtain ⟨e, he⟩ := Option.isSome_iff_exists.mp hsome
      have hb2 : ¬ trim l = [] := by
        simpa [List.isEmpty_iff] using hb
      have hev : lineEvs (l :: rest) = e :: lineEvs rest := by
        simp [lineEvs, hb2, he]
      have hstep : procLine o st l =
          ⟨(applyEvent o st.k st.msg e).1, (applyEvent o st.k st.msg e).2,
           st.events ++ [e], st.buffer⟩ := by
        simp [procLine, hb, he]
      rw [List.foldl_cons, hstep, ih _ hrest, hev]
      simp only [applyEvents]
      simp

theorem splitNl_decomp (T c : Str) :
    splitNl (T ++ c) = completedLines T ++ consHead (lastFrag T) (splitNl c) := by
  rw [splitNl_append]
  rfl

theorem completedLines_append (T c : Str) :
    completedLines (T ++ c) =
      completedLines T ++ (consHead (lastFrag T) (splitNl c)).dropLast := by
  show (splitNl (T ++ c)).dropLast = _
  rw [splitNl_decomp]
  exact List.dropLast_append_of_ne_nil _ (consHead_ne_nil _ _)

theorem lastFrag_append (T c : Str) :
    lastFrag (T ++ c) = lastD (consHead (lastFrag T) (splitNl c)) := by
  show lastD (splitNl (T ++ c)) = _
  rw [splitNl_decomp]
  unfold lastD
  rw [List.getLast?_append_of_ne_nil _ (consHead_ne_nil _ _)]

theorem completedLines_mono (A B : Str) :
    ∀ l ∈ completedLines A, l ∈ completedLines (A ++ B) := by
  intro l hl
  rw [completedLines_append]
  exact List.mem_append_left _ hl

theorem stepChunk_canon (o : Nat → Int) (m0 : Msg) (T c : Str)
    (hok : ∀ l ∈ completedLines (T ++ c),
        (trim l).isEmpty = true ∨ (jsonParse l).isSome = true) :
    stepChunk o (canonDec o m0 T) c = canonDec o m0 (T ++ c) := by
  have hnoNl : noNl (lastFrag T) = true :=
    splitNl_mem_noNl T _ (lastD_mem _ (splitNl_ne_nil T))
  have hparts : splitNl ((canonDec o m0 T).buffer ++ c) =
      consHead (lastFrag T) (splitNl c) := by
    show splitNl (lastFrag T ++ c) = _
    exact splitNl_append_noNl _ _ hnoNl
  have hok2 : ∀ l ∈ (consHead (lastFrag T) (splitNl c)).dropLast,
      (trim l).isEmpty = true ∨ (jsonParse l).isSome = true := by
    intro l hl
    apply hok
    rw [completedLines_append]
    exact List.mem_append_right _ hl
  have hlines : lineEvents (T ++ c) =
      lineEvents T ++ lineEvs ((consHead (lastFrag T) (splitNl c)).dropLast) := by
    rw [lineEvents_eq, completedLines_append, lineEvs_append]
    rfl
  simp only [stepChunk, hparts]
  rw [foldl_procLine_ok o _ _ hok2]
  unfold canonDec
  rw [lastFrag_append]
  simp only [hlines, applyEvents_append]

theorem runChunks_canon (o : Nat → Int) (m0 : Msg) (cs : List Str) (T : Str)
    (hok : ∀ l ∈ completedLines (T ++ cs.flatten),
        (trim l).isEmpty = true ∨ (jsonParse l).isSome = true) :
    runChunks o (canonDec o m0 T) cs = canonDec o m0 (T ++ cs.flatten) := by
  induction cs generalizing T with
  | nil => simp [runChunks]
  | cons c cs ih =>
    have hassoc : T ++ (c :: cs).flatten = (T ++ c) ++ cs.flatten := by
      simp
    show runChunks o (stepChunk o (canonDec o m0 T) c) cs = _
    rw [stepChunk_canon o m0 T c
      (fun l hl => hok l (by rw [hassoc]; exact completedLines_mono _ _ l hl))]
    rw [ih (T ++ c) (fun l hl => hok l (by rw [hassoc]; exact hl))]
    rw [hassoc]

theorem wellFormed_linesOk {P : Str} (hwf : wellFormedB P = true) :
    ∀ l ∈ completedLines P, (trim l).isEmpty = true ∨ (jsonParse l).isSome = true := by
  intro l hl
  simp only [wellFormedB, Bool.and_eq_true, List.all_eq_true] at hwf
  have h2 := hwf.2 l hl
  simpa using h2

theorem runChunks_wf (o : Nat → Int) (m0 : Msg) (P : Str) (cs : List Str)
    (hc : cs.flatten = P) (hwf : wellFormedB P = true) :
    runChunks o (initDecSt m0) cs = canonDec o m0 P := by
  have hinit : canonDec o m0 [] = initDecSt m0 := rfl
  have h := runChunks_canon o m0 cs []
    (by
      intro l hl
      apply wellFormed_linesOk hwf
      simpa [hc] using hl)
  rw [hinit] at h
  simpa [hc] using h

/-- Claim C2 (confirmed): for every well-formed logical NDJSON payload, any
two ways of chunking it yield the same ordered decoded event sequence and
an identical final message state (content, thinking, structuredBlocks,
expertInfo and completion flag) from the processStream pipeline. -/
theorem chunk_boundary_independence (o : Nat → Int) (m0 : Msg) (P : Str)
    (cs1 cs2 : List Str) (h1 : cs1.flatten = P) (h2 : cs2.flatten = P)
    (hwf : wellFormedB P = true) :
    (runChunks o (initDecSt m0) cs1).events =
      (runChunks o (initDecSt m0) cs2).events ∧
    runStream o m0 cs1 = runStream o m0 cs2 := by
  have e1 := runChunks_wf o m0 P cs1 h1 hwf
  have e2 := runChunks_wf o m0 P cs2 h2 hwf
  constructor
  · rw [e1, e2]
  · unfold runStream
    rw [e1, e2]

/-- Witness for C2: the spec's example split — the answer line cut inside
the JSON string versus delivered whole — produces identical events and an
identical final message. -/
theorem chunk_boundary_independence_witness :
    (runChunks (fun _ => 0) (initDecSt initMsg)
        [lit "\x7b\"type\":\"answer\",\"content\":\"He",
         lit "llo\"\x7d\n"]).events =
      (runChunks (fun _ => 0) (initDecSt initMsg)
        [lit "\x7b\"type\":\"answer\",\"content\":\"Hello\"\x7d\n"]).events ∧
    runStream (fun _ => 0) initMsg
        [lit "\x7b\"type\":\"answer\",\"content\":\"He", lit "llo\"\x7d\n"] =
      runStream (fun _ => 0) initMsg
        [lit "\x7b\"type\":\"answer\",\"content\":\"Hello\"\x7d\n"] :=
  chunk_boundary_independence (fun _ => 0) initMsg
    (lit "\x7b\"type\":\"answer\",\"content\":\"Hello\"\x7d\n") _ _ rfl rfl (by rfl)

theorem applyEvent_content (o : Nat → Int) (k : Nat) (m : Msg) (e : Json) :
    (applyEvent o k m e).1.content =
      m.content ++
        (if (typeIs e "answer" || typeIs e "text") = true then fragOf e
         else if typeIs e "error" = true then warnMark ++ errMsgOf e else []) := by
  unfold applyEvent
  split_ifs <;> try simp [List.append_assoc]
  all_goals
    first
      | (have hth : typeIs e "thinking" = true := by assumption
         first
           | (have hor : (typeIs e "answer" || typeIs e "text") = true := by assumption
              rw [typeIs_ne hth (by decide : ("thinking" : String) ≠ "answer"),
                  typeIs_ne hth (by decide : ("thinking" : String) ≠ "text")] at hor
              exact absurd hor (by simp))
           | (have herr : typeIs e "error" = true := by assumption
              rw [typeIs_ne hth (by decide : ("thinking" : String) ≠ "error")] at herr
              exact absurd herr (by simp)))
      | (have hex : typeIs e "expert_debug" = true := by assumption
         have herr : typeIs e "error" = true := by assumption
         rw [typeIs_ne hex (by decide : ("expert_debug" : String) ≠ "error")] at herr
         exact absurd herr (by simp))

theorem applyEvents_content (o : Nat → Int) (es : List Json) (m : Msg) (k : Nat)
    (hne : noErrorEvents es = true) :
    (applyEvents o m k es).1.content = m.content ++ fragsOf es := by
  induction es generalizing m k with
  | nil => simp [applyEvents, fragsOf]
  | cons e rest ih =>
    have hner : noErrorEvents rest = true := by
      simp only [noErrorEvents, List.all_cons, Bool.and_eq_true] at hne
      exact hne.2
    have hnee : typeIs e "error" = false := by
      simp only [noErrorEvents, List.all_cons, Bool.and_eq_true] at hne
      simpa using hne.1
    have hfrag : fragsOf (e :: rest) =
        (if (typeIs e "answer" || typeIs e "text") = true then fragOf e else []) ++
          fragsOf rest := rfl
    simp only [applyEvents]
    rw [ih _ _ hner, applyEvent_content, hfrag, hnee]
    simp [List.append_assoc]

/-- Claim C1 (amended): for every well-formed NDJSON payload containing no
error events, however it is chunked, the final content of the processStream
pipeline is the initial content followed by the ordered concatenation of
the text fragments of its text and answer events. -/
theorem content_is_fragment_concat (o : Nat → Int) (m0 : Msg) (P : Str)
    (cs : List Str) (hc : cs.flatten = P) (hwf : wellFormedB P = true)
    (hne : noErrorEvents (lineEvents P) = true) :
    (runStream o m0 cs).content = m0.content ++ fragsOf (lineEvents P) := by
  have e1 := runChunks_wf o m0 P cs hc hwf
  unfold runStream
  rw [e1]
  have hbuf : (canonDec o m0 P).buffer = [] := by
    show lastFrag P = []
    simp only [wellFormedB, Bool.and_eq_true] at hwf
    exact List.isEmpty_iff.mp hwf.1
  unfold finishStream
  rw [hbuf]
  show (applyEvents o m0 0 (lineEvents P)).1.content = _
  exact applyEvents_content o _ m0 0 hne

/-- Witness for C1: two answer fragments delivered as two chunks yield the
content Hello world. -/
theorem content_is_fragment_concat_witness :
    (runStream (fun _ => 0) initMsg
        [lit "\x7b\"type\":\"answer\",\"content\":\"Hello \"\x7d\n",
         lit "\x7b\"type\":\"answer\",\"content\":\"world\"\x7d\n"]).content =
      initMsg.content ++
        fragsOf (lineEvents
          (lit "\x7b\"type\":\"answer\",\"content\":\"Hello \"\x7d\n" ++
           lit "\x7b\"type\":\"answer\",\"content\":\"world\"\x7d\n")) :=
  content_is_fragment_concat (fun _ => 0) initMsg _
    [lit "\x7b\"type\":\"answer\",\"content\":\"Hello \"\x7d\n",
     lit "\x7b\"type\":\"answer\",\"content\":\"world\"\x7d\n"]
    rfl (by rfl) (by rfl)

/-- Counterexample for C1 as stated: a well-formed stream consisting of one
error event has no text or answer fragments, yet the final content is the
non-empty inline warning marker, so content does not equal the fragment
concatenation on every well-formed stream. -/
theorem content_error_marker_counterexample :
    wellFormedB (lit "\x7b\"type\":\"error\",\"data\":\x7b\"message\":\"m\"\x7d\x7d\n") = true ∧
    fragsOf (lineEvents
      (lit "\x7b\"type\":\"error\",\"data\":\x7b\"message\":\"m\"\x7d\x7d\n")) = [] ∧
    (runStream (fun _ => 0) initMsg
      [lit "\x7b\"type\":\"error\",\"data\":\x7b\"message\":\"m\"\x7d\x7d\n"]).content =
      warnMark ++ lit "m" ∧
    warnMark ++ lit "m" ≠ ([] : Str) := by
  exact ⟨rfl, rfl, rfl, by decide⟩

/-! Claims C3 and C4: the markdown table repair.  First, facts about
trimming. -/

theorem trimL_sublist (s : Str) : (trimL s).Sublist s := List.dropWhile_sublist _

theorem trimR_sublist (s : Str) : (trimR s).Sublist s := by
  have h := (List.dropWhile_sublist (p := wsChar) (l := s.reverse)).reverse
  simpa [trimR, trimL] using h

theorem trim_sublist (s : Str) : (trim s).Sublist s :=
  (trimR_sublist (trimL s)).trans (trimL_sublist s)

theorem noLt_iff {s : Str} : noLt s = true ↔ '<' ∉ s := by
  simp [noLt]

theorem noNl_iff {s : Str} : noNl s = true ↔ '\n' ∉ s := by
  simp [noNl]

theorem noLt_trim {s : Str} (h : noLt s = true) : noLt (trim s) = true :=
  noLt_iff.mpr (fun hc => noLt_iff.mp h ((trim_sublist s).subset hc))

theorem noNl_trim {s : Str} (h : noNl s = true) : noNl (trim s) = true :=
  noNl_iff.mpr (fun hc => noNl_iff.mp h ((trim_sublist s).subset hc))

theorem trimL_head_not_ws {s : Str} {c : Char} (h : (trimL s).head? = some c) :
    wsChar c = false := by
  induction s with
  | nil => simp [trimL] at h
  | cons d r ih =>
    by_cases hd : wsChar d = true
    · rw [show trimL (d :: r) = trimL r by simp [trimL, List.dropWhile_cons, hd]] at h
      exact ih h
    · rw [show trimL (d :: r) = d :: r by simp [trimL, List.dropWhile_cons, hd]] at h
      simp only [List.head?_cons, Option.some.injEq] at h
      rw [← h]
      simpa using hd

theorem trimR_last_not_ws {s : Str} {c : Char} (h : (trimR s).getLast? = some c) :
    wsChar c = false := by
  have h2 : (trimL s.reverse).reverse.getLast? = some c := h
  rw [List.getLast?_reverse] at h2
  exact trimL_head_not_ws h2

theorem trimR_decomp (t : Str) : ∃ u, t = trimR t ++ u := by
  refine ⟨(t.reverse.takeWhile wsChar).reverse, ?_⟩
  conv_lhs =>
    rw [← List.reverse_reverse t,
      ← List.takeWhile_append_dropWhile (p := wsChar) (l := t.reverse)]
  rw [List.reverse_append]
  rfl

theorem trimR_head? {t : Str} (h : trimR t ≠ []) : (trimR t).head? = t.head? := by
  obtain ⟨u, hu⟩ := trimR_decomp t
  rcases hd : trimR t with _ | ⟨c, r⟩
  · exact absurd hd h
  · rw [hu, hd]
    simp

theorem trim_head_not_ws {s : Str} {c : Char} (h : (trim s).head? = some c) :
    wsChar c = false := by
  have hne : trimR (trimL s) ≠ [] := by
    intro hnil
    rw [show trim s = trimR (trimL s) from rfl, hnil] at h
    simp at h
  have h2 : (trimL s).head? = some c := by
    rw [← trimR_head? hne]
    exact h
  exact trimL_head_not_ws h2

theorem trim_last_not_ws {s : Str} {c : Char} (h : (trim s).getLast? = some c) :
    wsChar c = false :=
  trimR_last_not_ws h

theorem trim_eq_self {s : Str}
    (h1 : ∀ c, s.head? = some c → wsChar c = false)
    (h2 : ∀ c, s.getLast? = some c → wsChar c = false) : trim s = s := by
  have hL : trimL s = s := by
    cases s with
    | nil => rfl
    | cons c r =>
      have := h1 c rfl
      simp [trimL, List.dropWhile_cons, this]
  have hR : trimR s = s := by
    have hrev : trimL s.reverse = s.reverse := by
      cases hr : s.reverse with
      | nil => simp [trimL]
      | cons c r =>
        have hc : s.getLast? = some c := by
          rw [← List.head?_reverse, hr]
          rfl
        have := h2 c hc
        simp [hr, trimL, List.dropWhile_cons, this]
    simp [trimR, hrev]
  rw [show trim s = trimR (trimL s) from rfl, hL, hR]

theorem trim_trim (s : Str) : trim (trim s) = trim s :=
  trim_eq_self (fun _ h => trim_head_not_ws h) (fun _ h => trim_last_not_ws h)

theorem trimmed_head_not_ws {s : Str} {c : Char} (heq : trim s = s)
    (h : s.head? = some c) : wsChar c = false :=
  trim_head_not_ws (heq.symm ▸ h)

theorem trim_append_close {p : Str} (hp : trim p = p) (hne : p ≠ []) :
    trim (p ++ [' ', '|']) = p ++ [' ', '|'] := by
  apply trim_eq_self
  · intro c h
    rcases hd : p with _ | ⟨c0, r⟩
    · exact absurd hd hne
    · rw [hd] at h
      simp only [List.cons_append, List.head?_cons, Option.some.injEq] at h
      rw [← h]
      exact trimmed_head_not_ws hp (by rw [hd]; rfl)
  · intro c h
    have h2 : (p ++ [' ', '|']).getLast? = some '|' := by
      rw [show p ++ [' ', '|'] = (p ++ [' ']) ++ ['|'] by simp, List.getLast?_concat]
    rw [h2] at h
    simp only [Option.some.injEq] at h
    rw [← h]
    rfl

theorem one_lt_length_of_pipes {t : Str} (hs : startsPipe t = true)
    (he : endsPipe t = false) : 1 < t.length := by
  rcases t with _ | ⟨c, r⟩
  · simp [startsPipe] at hs
  · rcases r with _ | ⟨d, r2⟩
    · simp [startsPipe, endsPipe] at hs he
      rw [hs] at he
      simp at he
    · simp

/-! Facts about the br-tag scanner. -/

theorem brScanF_fuel_irrel : ∀ (f g : Nat) (s : Str), s.length ≤ f → s.length ≤ g →
    brScanF f s = brScanF g s := by
  intro f
  induction f with
  | zero =>
    intro g s hf hg
    have : s = [] := List.length_eq_zero.mp (Nat.le_zero.mp hf)
    subst this
    cases g <;> rfl
  | succ f ih =>
    intro g s hf hg
    cases g with
    | zero =>
      have : s = [] := List.length_eq_zero.mp (Nat.le_zero.mp hg)
      subst this
      rfl
    | succ g =>
      cases s with
      | nil => rfl
      | cons c rest =>
        have hrest : rest.length ≤ f := by simpa using hf
        have hrestg : rest.length ≤ g := by simpa using hg
        by_cases hc : c = '<'
        · simp only [brScanF, if_pos hc]
          cases htb : tryBr rest with
          | none =>
            dsimp only
            rw [ih g rest hrest hrestg]
          | some r2 =>
            have hr2 := tryBr_len htb
            dsimp only
            rw [ih g r2 (by omega) (by omega)]
        · simp only [brScanF, if_neg hc]
          rw [ih g rest hrest hrestg]

theorem brScan_cons_ne {c : Char} (s : Str) (hc : ¬ c = '<') :
    brScan (c :: s) = c :: brScan s := by
  show brScanF (s.length + 1) (c :: s) = c :: brScanF s.length s
  simp only [brScanF, if_neg hc]

theorem brScan_lt_match {s r2 : Str} (h : tryBr s = some r2) :
    brScan ('<' :: s) = '\n' :: brScan r2 := by
  show brScanF (s.length + 1) ('<' :: s) = '\n' :: brScanF r2.length r2
  simp only [brScanF, if_pos rfl, h]
  rw [brScanF_fuel_irrel s.length r2.length r2 (Nat.le_of_lt (tryBr_len h)) le_rfl]
  simp

theorem brScan_lt_nomatch {s : Str} (h : tryBr s = none) :
    brScan ('<' :: s) = '<' :: brScan s := by
  show brScanF (s.length + 1) ('<' :: s) = '<' :: brScanF s.length s
  simp only [brScanF, if_pos rfl, h]
  simp

theorem brScan_noLt {s : Str} (h : noLt s = true) : brScan s = s := by
  induction s with
  | nil => rfl
  | cons c rest ih =>
    have hc : ¬ c = '<' := by
      intro hc
      subst hc
      exact absurd (noLt_iff.mp h) (by simp)
    have hr : noLt rest = true := by
      rw [noLt_iff] at h ⊢
      exact fun hm => h (List.mem_cons_of_mem _ hm)
    rw [brScan_cons_ne rest hc, ih hr]

theorem brScan_append_noLt {a : Str} (b : Str) (h : noLt a = true) :
    brScan (a ++ b) = a ++ brScan b := by
  induction a with
  | nil => rfl
  | cons c rest ih =>
    have hc : ¬ c = '<' := by
      intro hc
      subst hc
      exact absurd (noLt_iff.mp h) (by simp)
    have hr : noLt rest = true := by
      rw [noLt_iff] at h ⊢
      exact fun hm => h (List.mem_cons_of_mem _ hm)
    rw [List.cons_append, brScan_cons_ne _ hc, ih hr]
    simp

theorem tryBr_marker_tail (b : Str) : tryBr ('b' :: 'r' :: '>' :: b) = some b := rfl

theorem brScan_marker (a b : Str) (h : noLt a = true) :
    brScan (a ++ (brMark ++ b)) = a ++ '\n' :: brScan b := by
  rw [brScan_append_noLt _ h]
  congr 1
  show brScan ('<' :: 'b' :: 'r' :: '>' :: b) = '\n' :: brScan b
  rw [brScan_lt_match (tryBr_marker_tail b)]

/-! Structural facts about joining with newlines and with br markers. -/

theorem unbr_single (p : Str) : unbr [p] = p := by
  simp [unbr, List.intercalate]

theorem unbr_cons_cons (p q : Str) (ps : List Str) :
    unbr (p :: q :: ps) = p ++ brMark ++ unbr (q :: ps) := by
  simp [unbr, List.intercalate, List.intersperse]

theorem unbr_cons_ne (p : Str) {ps : List Str} (h : ps ≠ []) :
    unbr (p :: ps) = p ++ brMark ++ unbr ps := by
  cases ps with
  | nil => exact absurd rfl h
  | cons q qs => exact unbr_cons_cons p q qs

theorem joinNl_single (p : Str) : joinNl [p] = p := by
  simp [joinNl, List.intercalate]

theorem joinNl_cons_ne (p : Str) {ps : List Str} (h : ps ≠ []) :
    joinNl (p :: ps) = p ++ '\n' :: joinNl ps := by
  cases ps with
  | nil => exact absurd rfl h
  | cons q qs => exact joinNl_cons_cons p q qs

theorem unbr_merge (a b : Str) (L : List Str) :
    unbr ((a ++ brMark ++ b) :: L) = unbr (a :: b :: L) := by
  cases L with
  | nil => simp [unbr_single, unbr_cons_cons]
  | cons x xs =>
    rw [unbr_cons_cons, unbr_cons_cons, unbr_cons_cons]
    simp [List.append_assoc]

theorem unbr_append_last (L : List Str) (y z : Str) :
    unbr (L ++ [y]) ++ z = unbr (L ++ [y ++ z]) := by
  induction L with
  | nil => simp [unbr_single]
  | cons c L ih =>
    rw [List.cons_append, List.cons_append,
      unbr_cons_ne c (by simp), unbr_cons_ne c (by simp)]
    simp only [List.append_assoc, ih]

theorem unbr_snoc {L : List Str} (y : Str) (h : L ≠ []) :
    unbr (L ++ [y]) = unbr L ++ brMark ++ y := by
  induction L with
  | nil => exact absurd rfl h
  | cons c L ih =>
    cases L with
    | nil => simp [unbr_single, unbr_cons_cons]
    | cons d L2 =>
      rw [List.cons_append, unbr_cons_ne c (by simp), ih (by simp),
        unbr_cons_cons]
      simp [List.append_assoc]

theorem joinNl_append_ne (X Y : List Str) (hX : X ≠ []) (hY : Y ≠ []) :
    joinNl (X ++ Y) = joinNl X ++ '\n' :: joinNl Y := by
  induction X with
  | nil => exact absurd rfl hX
  | cons x X ih =>
    cases X with
    | nil =>
      rw [show ([x] ++ Y) = x :: Y by simp, joinNl_cons_ne x hY, joinNl_single]
    | cons x2 X2 =>
      rw [List.cons_append, joinNl_cons_ne x (by simp), joinNl_cons_ne x (by simp),
        ih (by simp)]
      simp [List.append_assoc]

theorem mem_joinNl {c : Char} {p : Str} {L : List Str} (hc : c ∈ p) (hp : p ∈ L) :
    c ∈ joinNl L := by
  induction L with
  | nil => simp at hp
  | cons q qs ih =>
    rcases List.mem_cons.mp hp with h | h
    · subst h
      cases qs with
      | nil => simpa [joinNl_single] using hc
      | cons r rs =>
        rw [joinNl_cons_ne p (by simp)]
        exact List.mem_append_left _ hc
    · cases qs with
      | nil => simp at h
      | cons r rs =>
        rw [joinNl_cons_ne q (by simp)]
        refine List.mem_append_right _ ?_
        exact List.mem_cons_of_mem _ (ih h)

theorem noLt_append {a b : Str} (ha : noLt a = true) (hb : noLt b = true) :
    noLt (a ++ b) = true := by
  rw [noLt_iff] at ha hb ⊢
  intro h
  rcases List.mem_append.mp h with h | h
  · exact ha h
  · exact hb h

theorem noNl_append {a b : Str} (ha : noNl a = true) (hb : noNl b = true) :
    noNl (a ++ b) = true := by
  rw [noNl_iff] at ha hb ⊢
  intro h
  rcases List.mem_append.mp h with h | h
  · exact ha h
  · exact hb h

theorem noLt_joinNl {L : List Str} (h : ∀ p ∈ L, noLt p = true) :
    noLt (joinNl L) = true := by
  induction L with
  | nil => rfl
  | cons p ps ih =>
    cases ps with
    | nil => simpa [joinNl_single] using h p (by simp)
    | cons q qs =>
      rw [joinNl_cons_ne p (by simp)]
      refine noLt_append (h p (by simp)) ?_
      rw [noLt_iff]
      intro hm
      rcases List.mem_cons.mp hm with h2 | h2
      · exact absurd h2.symm (by decide)
      · exact noLt_iff.mp (ih (fun x hx => h x (List.mem_cons_of_mem _ hx))) h2

theorem brScan_unbr (ps : List Str) (hps : ∀ p ∈ ps, noLt p = true)
    (hne : ps ≠ []) (rest : Str) :
    brScan (unbr ps ++ rest) = joinNl ps ++ brScan rest := by
  induction ps with
  | nil => exact absurd rfl hne
  | cons p ps ih =>
    cases ps with
    | nil =>
      rw [unbr_single, joinNl_single]
      exact brScan_append_noLt rest (hps p (by simp))
    | cons q qs =>
      rw [unbr_cons_ne p (by simp), joinNl_cons_ne p (by simp)]
      have hstep : (p ++ brMark ++ unbr (q :: qs)) ++ rest =
          p ++ (brMark ++ (unbr (q :: qs) ++ rest)) := by
        simp [List.append_assoc]
      rw [hstep, brScan_marker _ _ (hps p (by simp)),
        ih (fun x hx => hps x (List.mem_cons_of_mem _ hx)) (by simp)]
      simp [List.append_assoc]

/-! Facts about the output-line shapes. -/

theorem openerP_spec {t : Str} (h : openerP t = true) :
    trim t = t ∧ startsPipe t = true ∧ endsPipe t = false ∧ 1 < t.length ∧
      noLt t = true ∧ noNl t = true := by
  simp only [openerP, Bool.and_eq_true, beq_iff_eq, Bool.not_eq_true',
    decide_eq_true_eq] at h
  tauto

theorem midP_spec {t : Str} (h : midP t = true) :
    trim t = t ∧ t ≠ [] ∧ startsPipe t = false ∧ endsPipe t = false ∧
      noLt t = true ∧ noNl t = true := by
  simp only [midP, Bool.and_eq_true, beq_iff_eq, Bool.not_eq_true'] at h
  obtain ⟨⟨⟨⟨⟨h1, h2⟩, h3⟩, h4⟩, h5⟩, h6⟩ := h
  refine ⟨h1, ?_, h3, h4, h5, h6⟩
  intro hnil
  rw [hnil] at h2
  simp at h2

theorem closerP_spec {t : Str} (h : closerP t = true) :
    trim t = t ∧ endsPipe t = true ∧ noLt t = true ∧ noNl t = true := by
  simp only [closerP, Bool.and_eq_true, beq_iff_eq] at h
  tauto

theorem good_pieces {r : ERep} (h : ERep.good r = true) :
    ∀ p ∈ ERep.piecesOf r, noLt p = true ∧ noNl p = true := by
  cases r with
  | pass l =>
    intro p hp
    simp only [ERep.piecesOf, List.mem_singleton] at hp
    subst hp
    simp only [ERep.good, Bool.and_eq_true] at h
    exact ⟨h.1.1, h.1.2⟩
  | row p0 ms cl =>
    intro p hp
    simp only [ERep.good, Bool.and_eq_true, List.all_eq_true] at h
    simp only [ERep.piecesOf, List.mem_cons, List.mem_append,
      List.mem_singleton] at hp
    rcases hp with (hp | hp) | hp | hp
    · subst hp
      obtain ⟨_, _, _, _, h5, h6⟩ := openerP_spec h.1.1
      exact ⟨h5, h6⟩
    · obtain ⟨_, _, _, _, h5, h6⟩ := midP_spec (h.1.2 p hp)
      exact ⟨h5, h6⟩
    · subst hp
      obtain ⟨_, _, h3, h4⟩ := closerP_spec h.2
      exact ⟨h3, h4⟩
    · simp at hp

theorem piecesOf_ne_nil (r : ERep) : ERep.piecesOf r ≠ [] := by
  cases r <;> simp [ERep.piecesOf]

theorem piecesFlat_ne_nil {reps : List ERep} (h : reps ≠ []) :
    (reps.map ERep.piecesOf).flatten ≠ [] := by
  cases reps with
  | nil => exact absurd rfl h
  | cons r rs =>
    simp only [List.map_cons, List.flatten_cons]
    intro hcontra
    exact piecesOf_ne_nil r (List.append_eq_nil.mp hcontra).1

theorem brScan_renders (reps : List ERep) (hg : ∀ r ∈ reps, ERep.good r = true) :
    brScan (joinNl (reps.map ERep.render)) =
      joinNl ((reps.map ERep.piecesOf).flatten) := by
  induction reps with
  | nil => rfl
  | cons r rs ih =>
    have hgr := hg r (by simp)
    have hgrs : ∀ x ∈ rs, ERep.good x = true :=
      fun x hx => hg x (List.mem_cons_of_mem _ hx)
    have hpieces := good_pieces hgr
    cases hrs : rs with
    | nil =>
      simp only [List.map_cons, List.map_nil, List.flatten_cons, List.flatten_nil,
        List.append_nil, joinNl_single]
      cases r with
      | pass l =>
        simp only [ERep.render, ERep.piecesOf, joinNl_single]
        exact brScan_noLt (hpieces l (by simp [ERep.piecesOf])).1
      | row p0 ms cl =>
        simp only [ERep.render, ERep.piecesOf]
        have h2 := brScan_unbr (p0 :: ms ++ [cl])
          (fun p hp => (hpieces p hp).1) (by simp) []
        simpa [show brScan ([] : Str) = [] from rfl] using h2
    | cons r2 rs2 =>
      rw [← hrs]
      have hrs_ne : rs ≠ [] := by rw [hrs]; simp
      have hmapne : rs.map ERep.render ≠ [] := by
        simp [hrs_ne]
      rw [List.map_cons, joinNl_cons_ne _ hmapne]
      have hflatne : (rs.map ERep.piecesOf).flatten ≠ [] := piecesFlat_ne_nil hrs_ne
      cases r with
      | pass l =>
        have hl := hpieces l (by simp [ERep.piecesOf])
        simp only [ERep.render, ERep.piecesOf]
        rw [brScan_append_noLt _ hl.1, brScan_cons_ne _ (by decide), ih hgrs]
        simp only [List.map_cons, List.flatten_cons, ERep.piecesOf]
        rw [show ([l] : List Str) ++ (rs.map ERep.piecesOf).flatten =
          l :: (rs.map ERep.piecesOf).flatten by simp]
        rw [joinNl_cons_ne _ hflatne]
      | row p0 ms cl =>
        simp only [ERep.render, ERep.piecesOf]
        rw [brScan_unbr (p0 :: ms ++ [cl]) (fun p hp => (hpieces p hp).1) (by simp) _,
          brScan_cons_ne _ (by decide), ih hgrs]
        simp only [List.map_cons, List.flatten_cons, ERep.piecesOf]
        rw [joinNl_append_ne _ _ (by simp) hflatne]

/-! Branch lemmas for the line loop. -/

theorem isCompleteLine_false_of_ends {t : Str} (h : endsPipe t = false) :
    isCompleteLine t = false := by
  simp [isCompleteLine, h]

theorem isSepLine_false_of_ends {t : Str} (h : endsPipe t = false) :
    isSepLine t = false := by
  have h2 : (t.getLast? == some '|') = false := h
  simp [isSepLine, h2]

theorem procLines_open {l : Str} (rest : List Str)
    (h : openerCond (trim l) = true) :
    procLines (l :: rest) none = procLines rest (some (trim l)) := by
  have h2 : (startsPipe (trim l) && !endsPipe (trim l) &&
      decide (1 < (trim l).length)) = true := h
  simp only [openerCond, Bool.and_eq_true, Bool.not_eq_true',
    decide_eq_true_eq] at h
  simp [procLines, isCompleteLine_false_of_ends h.1.2,
    isSepLine_false_of_ends h.1.2, h2]

theorem procLines_pass (l : Str) (rest : List Str)
    (h : openerCond (trim l) = false) :
    procLines (l :: rest) none = l :: procLines rest none := by
  by_cases hcs : (isCompleteLine (trim l) || isSepLine (trim l)) = true
  · simp [procLines, hcs]
  · rw [Bool.not_eq_true] at hcs
    have h2 : (startsPipe (trim l) && !endsPipe (trim l) &&
        decide (1 < (trim l).length)) = false := h
    simp [procLines, hcs, h2]

theorem procLines_close {l : Str} (rest : List Str) (p : Str)
    (h : endsPipe (trim l) = true) :
    procLines (l :: rest) (some p) =
      (p ++ brMark ++ trim l) :: procLines rest none := by
  simp [procLines, h]

theorem procLines_forceopen {l : Str} (rest : List Str) (p : Str)
    (h1 : endsPipe (trim l) = false) (h2 : startsPipe (trim l) = true) :
    procLines (l :: rest) (some p) =
      (p ++ [' ', '|']) :: procLines rest (some (trim l)) := by
  simp [procLines, h1, h2]

theorem procLines_blank {l : Str} (rest : List Str) (p : Str)
    (h1 : endsPipe (trim l) = false) (h2 : startsPipe (trim l) = false)
    (h3 : (trim l).isEmpty = true) :
    procLines (l :: rest) (some p) =
      (p ++ [' ', '|']) :: l :: procLines rest none := by
  simp [procLines, h1, h2, h3]

theorem procLines_mid {l : Str} (rest : List Str) (p : Str)
    (h1 : endsPipe (trim l) = false) (h2 : startsPipe (trim l) = false)
    (h3 : (trim l).isEmpty = false) :
    procLines (l :: rest) (some p) =
      procLines rest (some (p ++ brMark ++ trim l)) := by
  simp [procLines, h1, h2, h3]

theorem pend_fold (ms : List Str) (cl : Str) (rest : List Str) (p : Str)
    (hm : ∀ m ∈ ms, endsPipe (trim m) = false ∧ startsPipe (trim m) = false ∧
      (trim m).isEmpty = false)
    (hcl : endsPipe (trim cl) = true) :
    procLines (ms ++ cl :: rest) (some p) =
      unbr (p :: ms.map trim ++ [trim cl]) :: procLines rest none := by
  induction ms generalizing p with
  | nil =>
    rw [List.nil_append, procLines_close rest p hcl]
    congr 1
    rw [show (p :: List.map trim [] ++ [trim cl]) = [p, trim cl] by simp,
      unbr_cons_cons, unbr_single]
  | cons m ms ih =>
    obtain ⟨h1, h2, h3⟩ := hm m (by simp)
    rw [List.cons_append, procLines_mid _ _ h1 h2 h3,
      ih _ (fun x hx => hm x (List.mem_cons_of_mem _ hx))]
    congr 1
    rw [show (p :: (m :: ms).map trim ++ [trim cl]) =
      p :: trim m :: (ms.map trim ++ [trim cl]) by simp]
    exact unbr_merge p (trim m) _

theorem close_rep (p0 : Str) (ms : List Str) (h0 : openerP p0 = true)
    (hm : ∀ m ∈ ms, midP m = true) :
    ∃ r : ERep, ERep.render r = unbr (p0 :: ms) ++ [' ', '|'] ∧
      ERep.good r = true := by
  obtain ⟨ht, hs, he, hlen, hlt, hnl⟩ := openerP_spec h0
  rcases List.eq_nil_or_concat ms with rfl | ⟨L, m, rfl⟩
  · refine ⟨.pass (p0 ++ [' ', '|']), by simp [ERep.render, unbr_single], ?_⟩
    have hp0ne : p0 ≠ [] := by
      intro h
      rw [h] at hlen
      simp at hlen
    have htr : trim (p0 ++ [' ', '|']) = p0 ++ [' ', '|'] :=
      trim_append_close ht hp0ne
    have hends : endsPipe (p0 ++ [' ', '|']) = true := by
      show ((p0 ++ [' ', '|']).getLast? == some '|') = true
      rw [show p0 ++ [' ', '|'] = (p0 ++ [' ']) ++ ['|'] by simp,
        List.getLast?_concat]
      rfl
    simp only [ERep.good, Bool.and_eq_true, Bool.not_eq_true']
    refine ⟨⟨noLt_append hlt (by decide), noNl_append hnl (by decide)⟩, ?_⟩
    rw [htr]
    simp [openerCond, hends]
  · simp only [List.concat_eq_append] at hm ⊢
    refine ⟨.row p0 L (m ++ [' ', '|']), ?_, ?_⟩
    · show unbr ((p0 :: L) ++ [m ++ [' ', '|']]) =
        unbr ((p0 :: L) ++ [m]) ++ [' ', '|']
      rw [unbr_snoc m (by simp), unbr_snoc (m ++ [' ', '|']) (by simp)]
      simp [List.append_assoc]
    · obtain ⟨htm, hmne, _, _, hmlt, hmnl⟩ := midP_spec (hm m (by simp))
      have htr : trim (m ++ [' ', '|']) = m ++ [' ', '|'] :=
        trim_append_close htm hmne
      have hends : endsPipe (m ++ [' ', '|']) = true := by
        show ((m ++ [' ', '|']).getLast? == some '|') = true
        rw [show m ++ [' ', '|'] = (m ++ [' ']) ++ ['|'] by simp,
          List.getLast?_concat]
        rfl
      simp only [ERep.good, Bool.and_eq_true, List.all_eq_true]
      refine ⟨⟨h0, fun x hx => hm x (List.mem_append_left _ hx)⟩, ?_⟩
      simp only [closerP, Bool.and_eq_true, beq_iff_eq]
      exact ⟨⟨⟨htr, hends⟩, noLt_append hmlt (by decide)⟩,
        noNl_append hmnl (by decide)⟩

theorem procLines_pass1 (ls : List Str) (pd : Option Str)
    (hls : ∀ l ∈ ls, noLt l = true ∧ noNl l = true)
    (hpd : pd = none ∨ ∃ p0 ms, pd = some (unbr (p0 :: ms)) ∧
      openerP p0 = true ∧ ∀ m ∈ ms, midP m = true) :
    ∃ reps : List ERep, procLines ls pd = reps.map ERep.render ∧
      ∀ r ∈ reps, ERep.good r = true := by
  induction ls generalizing pd with
  | nil =>
    rcases hpd with rfl | ⟨p0, ms, rfl, h0, hm⟩
    · exact ⟨[], rfl, by simp⟩
    · obtain ⟨r, hr, hg⟩ := close_rep p0 ms h0 hm
      refine ⟨[r], ?_, by simp [hg]⟩
      simp [procLines, hr]
  | cons l ls ih =>
    obtain ⟨hlt, hnl⟩ := hls l (by simp)
    have hlsr : ∀ x ∈ ls, noLt x = true ∧ noNl x = true :=
      fun x hx => hls x (List.mem_cons_of_mem _ hx)
    have htlt : noLt (trim l) = true := noLt_trim hlt
    have htnl : noNl (trim l) = true := noNl_trim hnl
    rcases hpd with rfl | ⟨p0, ms, rfl, h0, hm⟩
    · by_cases hop : openerCond (trim l) = true
      · rw [procLines_open ls hop]
        have hoP : openerP (trim l) = true := by
          simp only [openerCond, Bool.and_eq_true, Bool.not_eq_true',
            decide_eq_true_eq] at hop
          simp only [openerP, Bool.and_eq_true, beq_iff_eq, Bool.not_eq_true',
            decide_eq_true_eq]
          exact ⟨⟨⟨⟨⟨trim_trim l, hop.1.1⟩, hop.1.2⟩, hop.2⟩, htlt⟩, htnl⟩
        exact ih (some (trim l)) hlsr
          (Or.inr ⟨trim l, [], by rw [unbr_single], hoP, by simp⟩)
      · rw [Bool.not_eq_true] at hop
        rw [procLines_pass l ls hop]
        obtain ⟨reps, hr, hg⟩ := ih none hlsr (Or.inl rfl)
        refine ⟨.pass l :: reps, by simp [ERep.render, hr], ?_⟩
        intro r hr2
        rcases List.mem_cons.mp hr2 with h | h
        · subst h
          simp only [ERep.good, Bool.and_eq_true, Bool.not_eq_true']
          exact ⟨⟨hlt, hnl⟩, hop⟩
        · exact hg r h
    · by_cases hend : endsPipe (trim l) = true
      · rw [procLines_close ls _ hend]
        obtain ⟨reps, hr, hg⟩ := ih none hlsr (Or.inl rfl)
        refine ⟨.row p0 ms (trim l) :: reps, ?_, ?_⟩
        · simp only [List.map_cons, ERep.render, hr]
          congr 1
          rw [show (p0 :: ms ++ [trim l] : List Str) = (p0 :: ms) ++ [trim l] by simp,
            unbr_snoc (trim l) (by simp)]
        · intro r hr2
          rcases List.mem_cons.mp hr2 with h | h
          · subst h
            simp only [ERep.good, Bool.and_eq_true, List.all_eq_true]
            refine ⟨⟨h0, hm⟩, ?_⟩
            simp only [closerP, Bool.and_eq_true, beq_iff_eq]
            exact ⟨⟨⟨trim_trim l, hend⟩, htlt⟩, htnl⟩
          · exact hg r h
      · rw [Bool.not_eq_true] at hend
        by_cases hstart : startsPipe (trim l) = true
        · rw [procLines_forceopen ls _ hend hstart]
          obtain ⟨r, hrend, hrg⟩ := close_rep p0 ms h0 hm
          have hoP : openerP (trim l) = true := by
            simp only [openerP, Bool.and_eq_true, beq_iff_eq, Bool.not_eq_true',
              decide_eq_true_eq]
            exact ⟨⟨⟨⟨⟨trim_trim l, hstart⟩, hend⟩,
              one_lt_length_of_pipes hstart hend⟩, htlt⟩, htnl⟩
          obtain ⟨reps, hr, hg⟩ := ih (some (trim l)) hlsr
            (Or.inr ⟨trim l, [], by rw [unbr_single], hoP, by simp⟩)
          refine ⟨r :: reps, by simp [hr, hrend], ?_⟩
          intro x hx
          rcases List.mem_cons.mp hx with h | h
          · subst h
            exact hrg
          · exact hg x h
        · rw [Bool.not_eq_true] at hstart
          by_cases hblank : (trim l).isEmpty = true
          · rw [procLines_blank ls _ hend hstart hblank]
            obtain ⟨r, hrend, hrg⟩ := close_rep p0 ms h0 hm
            obtain ⟨reps, hr, hg⟩ := ih none hlsr (Or.inl rfl)
            refine ⟨r :: .pass l :: reps, ?_, ?_⟩
            · rw [List.map_cons, List.map_cons, hrend, hr]
              rfl
            intro x hx
            rcases List.mem_cons.mp hx with h | h
            · subst h
              exact hrg
            · rcases List.mem_cons.mp h with h2 | h2
              · subst h2
                simp only [ERep.good, Bool.and_eq_true, Bool.not_eq_true']
                refine ⟨⟨hlt, hnl⟩, ?_⟩
                have : startsPipe (trim l) = false := hstart
                simp [openerCond, this]
              · exact hg x h2
          · rw [Bool.not_eq_true] at hblank
            rw [procLines_mid ls _ hend hstart hblank]
            have hmid : midP (trim l) = true := by
              simp only [midP, Bool.and_eq_true, beq_iff_eq, Bool.not_eq_true']
              exact ⟨⟨⟨⟨⟨trim_trim l, hblank⟩, hstart⟩, hend⟩, htlt⟩, htnl⟩
            refine ih (some (unbr (p0 :: ms) ++ brMark ++ trim l)) hlsr
              (Or.inr ⟨p0, ms ++ [trim l], ?_, h0, ?_⟩)
            · rw [show (p0 :: (ms ++ [trim l]) : List Str) = (p0 :: ms) ++ [trim l] by simp,
                unbr_snoc (trim l) (by simp)]
            · intro m hm2
              rcases List.mem_append.mp hm2 with h | h
              · exact hm m h
              · rw [List.mem_singleton.mp h]
                exact hmid

theorem procLines_pass2 (reps : List ERep)
    (hg : ∀ r ∈ reps, ERep.good r = true) :
    procLines ((reps.map ERep.piecesOf).flatten) none = reps.map ERep.render := by
  induction reps with
  | nil => rfl
  | cons r rs ih =>
    have hgr := hg r (by simp)
    have hgrs : ∀ x ∈ rs, ERep.good x = true :=
      fun x hx => hg x (List.mem_cons_of_mem _ hx)
    simp only [List.map_cons, List.flatten_cons]
    cases r with
    | pass l =>
      simp only [ERep.piecesOf, ERep.render]
      rw [show ([l] ++ (rs.map ERep.piecesOf).flatten : List Str) =
        l :: (rs.map ERep.piecesOf).flatten by simp]
      simp only [ERep.good, Bool.and_eq_true, Bool.not_eq_true'] at hgr
      rw [procLines_pass l _ hgr.2, ih hgrs]
    | row p0 ms cl =>
      simp only [ERep.piecesOf, ERep.render]
      simp only [ERep.good, Bool.and_eq_true, List.all_eq_true] at hgr
      obtain ⟨⟨h0, hms⟩, hcl⟩ := hgr
      obtain ⟨ht0, hs0, he0, hlen0, _, _⟩ := openerP_spec h0
      have hassoc : ((p0 :: ms) ++ [cl] ++ (rs.map ERep.piecesOf).flatten
          : List Str) = p0 :: (ms ++ cl :: (rs.map ERep.piecesOf).flatten) := by
        simp
      rw [hassoc]
      have hopen : openerCond (trim p0) = true := by
        rw [ht0]
        simp [openerCond, hs0, he0, hlen0]
      rw [procLines_open _ hopen, ht0]
      have hmids : ∀ m ∈ ms, endsPipe (trim m) = false ∧
          startsPipe (trim m) = false ∧ (trim m).isEmpty = false := by
        intro m hm
        obtain ⟨htm, hmne, hsm, hem, _, _⟩ := midP_spec (hms m hm)
        rw [htm]
        refine ⟨hem, hsm, ?_⟩
        cases hi : m.isEmpty with
        | false => rfl
        | true => exact absurd (List.isEmpty_iff.mp hi) hmne
      obtain ⟨htc, hec, _, _⟩ := closerP_spec hcl
      rw [pend_fold ms cl _ p0 hmids (by rw [htc]; exact hec), ih hgrs]
      congr 2
      have hmap : ms.map trim = ms := by
        rw [show ms.map trim = ms.map id from
          List.map_congr_left (fun m hm => (midP_spec (hms m hm)).1), List.map_id]
      rw [hmap, htc]

/-! Glue lemmas for the idempotence and wrapped-row claims. -/

theorem splitNl_mem_subset : ∀ (s : Str), ∀ p ∈ splitNl s, ∀ c ∈ p, c ∈ s := by
  intro s
  induction s with
  | nil =>
    intro p hp c hc
    simp [splitNl] at hp
    subst hp
    simp at hc
  | cons d rest ih =>
    intro p hp c hc
    by_cases hd : d = '\n'
    · subst hd
      rw [show splitNl ('\n' :: rest) = [] :: splitNl rest from by
        simp [splitNl]] at hp
      rcases List.mem_cons.mp hp with h | h
      · subst h
        simp at hc
      · exact List.mem_cons_of_mem _ (ih p h c hc)
    · cases hsr : splitNl rest with
      | nil => exact absurd hsr (splitNl_ne_nil rest)
      | cons p2 ps =>
        rw [show splitNl (d :: rest) = (d :: p2) :: ps from by
          simp [splitNl, hd, hsr]] at hp
        rcases List.mem_cons.mp hp with h | h
        · subst h
          rcases List.mem_cons.mp hc with h2 | h2
          · subst h2
            exact List.mem_cons_self _ _
          · exact List.mem_cons_of_mem _
              (ih p2 (by rw [hsr]; exact List.mem_cons_self _ _) c h2)
        · exact List.mem_cons_of_mem _
            (ih p (by rw [hsr]; exact List.mem_cons_of_mem _ h) c hc)

theorem splitNl_mem_noLt {s : Str} (h : noLt s = true) :
    ∀ p ∈ splitNl s, noLt p = true :=
  fun p hp => noLt_iff.mpr (fun hc => noLt_iff.mp h (splitNl_mem_subset s p hp '<' hc))

theorem contains_false_iff {s : Str} {c : Char} : s.contains c = false ↔ c ∉ s := by
  simp

theorem contains_true_iff {s : Str} {c : Char} : s.contains c = true ↔ c ∈ s := by
  simp

theorem startsPipe_mem {t : Str} (h : startsPipe t = true) : '|' ∈ t := by
  cases t with
  | nil => simp [startsPipe] at h
  | cons c r =>
    have hc : c = '|' := by simpa [startsPipe] using h
    subst hc
    exact List.mem_cons_self _ _

theorem startsPipe_append {a b : Str} (h : a ≠ []) :
    startsPipe (a ++ b) = startsPipe a := by
  cases a with
  | nil => exact absurd rfl h
  | cons c r => simp [startsPipe]

theorem endsPipe_ne_nil {t : Str} (h : endsPipe t = true) : t ≠ [] := by
  intro hn
  rw [hn] at h
  simp [endsPipe] at h

theorem endsPipe_append {a b : Str} (h : b ≠ []) :
    endsPipe (a ++ b) = endsPipe b := by
  rcases List.eq_nil_or_concat b with rfl | ⟨L, y, rfl⟩
  · exact absurd rfl h
  · rw [List.concat_eq_append, ← List.append_assoc]
    unfold endsPipe
    rw [List.getLast?_concat, List.getLast?_concat]

theorem noNl_unbr {ps : List Str} (h : ∀ p ∈ ps, noNl p = true) :
    noNl (unbr ps) = true := by
  induction ps with
  | nil => rfl
  | cons p qs ih =>
    cases qs with
    | nil => simpa [unbr_single] using h p (by simp)
    | cons q rs =>
      rw [unbr_cons_cons]
      exact noNl_append (noNl_append (h p (by simp)) (by decide))
        (ih (fun x hx => h x (List.mem_cons_of_mem _ hx)))

theorem renders_flatten_of_pass {reps : List ERep}
    (h : ∀ r ∈ reps, ∃ l, r = ERep.pass l) :
    (reps.map ERep.piecesOf).flatten = reps.map ERep.render := by
  induction reps with
  | nil => rfl
  | cons r rs ih =>
    obtain ⟨l, rfl⟩ := h r (List.mem_cons_self _ _)
    simp only [List.map_cons, List.flatten_cons, ERep.piecesOf, ERep.render]
    rw [ih (fun x hx => h x (List.mem_cons_of_mem _ hx))]
    rfl

theorem processContent_renders (reps : List ERep)
    (hg : ∀ r ∈ reps, ERep.good r = true) :
    processContent (joinNl (reps.map ERep.render)) =
      joinNl (reps.map ERep.render) := by
  by_cases hy : (joinNl (reps.map ERep.render)).isEmpty = true
  · simp [processContent, hy]
  · have hne : reps ≠ [] := by
      intro h
      subst h
      exact hy rfl
    have hbr := brScan_renders reps hg
    have hfl : ∀ p ∈ (reps.map ERep.piecesOf).flatten,
        noLt p = true ∧ noNl p = true := by
      intro p hp
      obtain ⟨l, hl, hpl⟩ := List.mem_flatten.mp hp
      obtain ⟨r, hr, rfl⟩ := List.mem_map.mp hl
      exact good_pieces (hg r hr) p hpl
    by_cases hp2 : (joinNl ((reps.map ERep.piecesOf).flatten)).contains '|' = true
    · have hsplit : splitNl (joinNl ((reps.map ERep.piecesOf).flatten)) =
          (reps.map ERep.piecesOf).flatten :=
        splitNl_joinNl _ (piecesFlat_ne_nil hne) (fun p hp => (hfl p hp).2)
      have hpl2 := procLines_pass2 reps hg
      have hmem : '|' ∈ joinNl ((reps.map ERep.piecesOf).flatten) :=
        contains_true_iff.mp hp2
      simp [processContent, hy, hbr, hmem, hsplit, hpl2]
    · have hpass : ∀ r ∈ reps, ∃ l, r = ERep.pass l := by
        intro r hr
        cases r with
        | pass l => exact ⟨l, rfl⟩
        | row p0 ms cl =>
          exfalso
          have hgr := hg _ hr
          simp only [ERep.good, Bool.and_eq_true, List.all_eq_true] at hgr
          obtain ⟨_, hsp, _, _, _, _⟩ := openerP_spec hgr.1.1
          have hmem : '|' ∈ p0 := startsPipe_mem hsp
          have hp0 : p0 ∈ (reps.map ERep.piecesOf).flatten := by
            refine List.mem_flatten.mpr ⟨ERep.piecesOf (ERep.row p0 ms cl),
              List.mem_map_of_mem _ hr, ?_⟩
            simp [ERep.piecesOf]
          have hjn : '|' ∈ joinNl ((reps.map ERep.piecesOf).flatten) :=
            mem_joinNl hmem hp0
          rw [Bool.not_eq_true] at hp2
          exact contains_false_iff.mp hp2 hjn
      have hflat := renders_flatten_of_pass hpass
      have hnp : '|' ∉ joinNl (reps.map ERep.render) := by
        rw [← hflat]
        rw [Bool.not_eq_true] at hp2
        exact contains_false_iff.mp hp2
      have hb2 : brScan (joinNl (reps.map ERep.render)) =
          joinNl (reps.map ERep.render) := by
        rw [hbr, hflat]
      simp [processContent, hy, hb2, hnp]

/-- Claim C3 (amended): on every input free of the angle-bracket character,
so that the br-replacement pass cannot manufacture a new br match, the
markdown repair transform processContent of App.jsx is idempotent. -/
theorem processContent_idempotent_ltfree (x : Str) (h : noLt x = true) :
    processContent (processContent x) = processContent x := by
  by_cases hx : x.isEmpty = true
  · have h0 : processContent x = x := by simp [processContent, hx]
    rw [h0, h0]
  · have hbr := brScan_noLt h
    by_cases hpipe : x.contains '|' = true
    · obtain ⟨reps, hreps, hg⟩ := procLines_pass1 (splitNl x) none
        (fun l hl => ⟨splitNl_mem_noLt h l hl, splitNl_mem_noNl x l hl⟩)
        (Or.inl rfl)
      have hmem : '|' ∈ x := contains_true_iff.mp hpipe
      have hpcx : processContent x = joinNl (reps.map ERep.render) := by
        simp [processContent, hx, hbr, hmem, hreps]
      rw [hpcx]
      exact processContent_renders reps hg
    · have hnomem : '|' ∉ x := by
        rw [Bool.not_eq_true] at hpipe
        exact contains_false_iff.mp hpipe
      have hpcx : processContent x = x := by
        simp [processContent, hx, hbr, hnomem]
      rw [hpcx, hpcx]

/-- Claim C3 witness: a concrete angle-bracket-free input on which the
repair transform does rewrite (an unterminated row is force-closed), and a
second application leaves the output unchanged. -/
theorem processContent_idempotent_ltfree_witness :
    noLt (lit "| a") = true ∧
      processContent (processContent (lit "| a")) = processContent (lit "| a") :=
  ⟨by decide, processContent_idempotent_ltfree (lit "| a") (by decide)⟩

/-- Claim C3 counterexample: on the input <br<br>>| the first pass turns
the inner br tag into a newline, which manufactures a fresh br match
spanning that newline, so a second application of processContent changes
the text again: the transform is not idempotent on arbitrary inputs. -/
theorem processContent_idempotence_counterexample :
    processContent (processContent (lit "<br<br>>|")) ≠
      processContent (lit "<br<br>>|") := by decide

/-- Claim C4 (confirmed): a table row wrapped across several physical lines
(an opening line whose trimmed form starts with a pipe without ending in
one, middle continuation lines touching no pipe, and a closing line whose
trimmed form ends with a pipe, all free of br markup and newlines) is
collapsed by processContent into exactly one output line: the output equals
the trimmed fragments joined by the inline br marker, starts and ends with
a pipe, and contains no newline. -/
theorem wrapped_row_single_line (l0 cl : Str) (ms : List Str)
    (h0 : openerCond (trim l0) = true)
    (hl0 : noLt l0 = true) (hn0 : noNl l0 = true)
    (hms : ∀ m ∈ ms, noLt m = true ∧ noNl m = true ∧
      startsPipe (trim m) = false ∧ endsPipe (trim m) = false ∧
      (trim m).isEmpty = false)
    (hlc : noLt cl = true) (hnc : noNl cl = true)
    (hec : endsPipe (trim cl) = true) :
    processContent (joinNl (l0 :: (ms ++ [cl]))) =
        unbr ((trim l0 :: ms.map trim) ++ [trim cl]) ∧
      startsPipe (processContent (joinNl (l0 :: (ms ++ [cl])))) = true ∧
      endsPipe (processContent (joinNl (l0 :: (ms ++ [cl])))) = true ∧
      noNl (processContent (joinNl (l0 :: (ms ++ [cl])))) = true := by
  have h0' := h0
  simp only [openerCond, Bool.and_eq_true, Bool.not_eq_true',
    decide_eq_true_eq] at h0'
  obtain ⟨⟨hsp, hep⟩, hlen⟩ := h0'
  have hne0 : trim l0 ≠ [] := by
    intro hn
    rw [hn] at hlen
    simp at hlen
  have hxlt : noLt (joinNl (l0 :: (ms ++ [cl]))) = true := by
    refine noLt_joinNl ?_
    intro p hp
    rcases List.mem_cons.mp hp with rfl | hp2
    · exact hl0
    rcases List.mem_append.mp hp2 with hm | hcl2
    · exact (hms p hm).1
    · rw [List.mem_singleton.mp hcl2]
      exact hlc
  have hbrx : brScan (joinNl (l0 :: (ms ++ [cl]))) = joinNl (l0 :: (ms ++ [cl])) :=
    brScan_noLt hxlt
  have hxne : (joinNl (l0 :: (ms ++ [cl]))).isEmpty = false := by
    rw [joinNl_cons_ne l0 (by simp)]
    simp
  have hmempipe : '|' ∈ joinNl (l0 :: (ms ++ [cl])) := by
    have h1 : '|' ∈ trim l0 := startsPipe_mem hsp
    have h2 : '|' ∈ l0 := (trim_sublist l0).subset h1
    exact mem_joinNl h2 (by simp)
  have hsplit : splitNl (joinNl (l0 :: (ms ++ [cl]))) = l0 :: (ms ++ [cl]) := by
    refine splitNl_joinNl _ (by simp) ?_
    intro p hp
    rcases List.mem_cons.mp hp with rfl | hp2
    · exact hn0
    rcases List.mem_append.mp hp2 with hm | hcl2
    · exact (hms p hm).2.1
    · rw [List.mem_singleton.mp hcl2]
      exact hnc
  have hopen := procLines_open (ms ++ [cl]) h0
  have hfold := pend_fold ms cl [] (trim l0)
    (fun m hm => ⟨(hms m hm).2.2.2.1, (hms m hm).2.2.1, (hms m hm).2.2.2.2⟩) hec
  have hmain : processContent (joinNl (l0 :: (ms ++ [cl]))) =
      unbr ((trim l0 :: ms.map trim) ++ [trim cl]) := by
    have hstep : processContent (joinNl (l0 :: (ms ++ [cl]))) =
        joinNl (procLines (splitNl (joinNl (l0 :: (ms ++ [cl])))) none) := by
      simp [processContent, hxne, hbrx, hmempipe]
    rw [hstep, hsplit, hopen, hfold,
      show procLines [] none = ([] : List Str) from rfl]
    exact joinNl_single _
  refine ⟨hmain, ?_, ?_, ?_⟩
  · rw [hmain, List.cons_append, unbr_cons_ne _ (by simp), List.append_assoc,
      startsPipe_append hne0]
    exact hsp
  · rw [hmain, unbr_snoc (trim cl) (by simp),
      endsPipe_append (endsPipe_ne_nil hec)]
    exact hec
  · rw [hmain]
    refine noNl_unbr ?_
    intro p hp
    rcases List.mem_append.mp hp with hp | hp
    · rcases List.mem_cons.mp hp with rfl | hp2
      · exact noNl_trim hn0
      · obtain ⟨m, hm, rfl⟩ := List.mem_map.mp hp2
        exact noNl_trim (hms m hm).2.1
    · rw [List.mem_singleton.mp hp]
      exact noNl_trim hnc

/-- Claim C4 witness: the wrapped row of the specification worked example
collapses to the single repaired row line. -/
theorem wrapped_row_single_line_witness :
    processContent (joinNl (lit "| 硬装 | - 水电改造" ::
        ([lit "- 防水施工"] ++ [lit "- 瓷砖铺贴 |"]))) =
      lit "| 硬装 | - 水电改造<br>- 防水施工<br>- 瓷砖铺贴 |" := by
  rw [(wrapped_row_single_line (lit "| 硬装 | - 水电改造") (lit "- 瓷砖铺贴 |")
    [lit "- 防水施工"] (by decide) (by decide) (by decide) (by decide)
    (by decide) (by decide) (by decide)).1]
  decide

end DecoPilot
